import Mathlib

/-!
Shallow embedding of the ascii-minesweeper game engine
(`src/minesweeper/game.py`, class `Minesweeper`) and verification of its
specification.

Modelling conventions:
* The two numpy `size × size` float matrices `_board` and `_visible` are
  modelled as total functions `Int → Int → Int` (board values) and
  `Int → Int → Nat` (visibility codes 0 = hidden, 1 = revealed, 2 = flag,
  3 = question mark); all in-engine accesses are guarded by
  `_is_valid_point` exactly as in the source, and the unguarded numpy
  accesses in `uncover_square` / `mark_square` go through `npIdx`, which
  reproduces numpy 1-d integer indexing (negative indices in `[-size, 0)`
  alias to `index + size`; anything outside `[-size, size)` raises
  `IndexError`, modelled by `none`).
* The random sample drawn by `np.random.default_rng().choice` inside
  `_generate_board` is passed in as an explicit list `mines`; the
  rejection loop (`while True: ... if value not in mines_nums: break`)
  is modelled by hypotheses on that list in the theorems.
* `_make_visible` recurses through mutation; the recursion terminates
  because every recursive call is preceded by turning a hidden/questioned
  cell visible (or happens at most once, for the chord branch).  The
  embedding uses a fuel parameter; `uncover_square` supplies
  `size * size + 3` fuel, which is proved ample by the `hiddenCount`
  bookkeeping lemmas below.
* The Python status strings `'lost'`, `'won'`, `'in_progress'` are the
  inductive `Status`.
-/

/-- Game status: the Python module-level constants LOST / WON / IN_PROGRESS. -/
inductive Status where
  | lost : Status
  | won : Status
  | inProgress : Status
deriving DecidableEq, Repr

/-- The mutable state of a `Minesweeper` instance: `_size`, `_mine_count`,
`_player_mine_count`, `_indent`, `_first_move`, `_status`, `_board`,
`_visible`. -/
@[ext] structure Game where
  size : Nat
  mineCount : Nat
  playerMineCount : Int
  indent : Int
  firstMove : Bool
  status : Status
  board : Int → Int → Int
  visible : Int → Int → Nat

/-- `Minesweeper._OFFSETS`: the 8 neighbor offsets, in source order. -/
def OFFSETS : List (Int × Int) :=
  [(1, 1), (1, 0), (1, -1), (0, 1), (0, -1), (-1, 1), (-1, 0), (-1, -1)]

/-- `Minesweeper._is_valid_point`: `0 <= x < size and 0 <= y < size`. -/
def isValidPoint (size : Nat) (x y : Int) : Bool :=
  decide (0 ≤ x) && decide (x < (size : Int)) && decide (0 ≤ y) && decide (y < (size : Int))

/-- numpy integer indexing on one axis of a length-`size` array:
indices in `[0, size)` are taken as is, indices in `[-size, 0)` count from
the end, anything else raises `IndexError` (`none`). -/
def npIdx (size : Nat) (i : Int) : Option Int :=
  if 0 ≤ i ∧ i < (size : Int) then some i
  else if -(size : Int) ≤ i ∧ i < 0 then some (i + (size : Int)) else none

/-- Assignment `self._visible[x, y] = v` (with exact indices). -/
def setVisible (g : Game) (x y : Int) (v : Nat) : Game :=
  { g with visible := fun a b => if a = x ∧ b = y then v else g.visible a b }

/-- `Minesweeper._count_neighboring_flags`. -/
def countNeighboringFlags (g : Game) (x y : Int) : Nat :=
  (OFFSETS.countP fun d =>
    isValidPoint g.size (x + d.1) (y + d.2) && (g.visible (x + d.1) (y + d.2) == 2))

/-- `Minesweeper._update_board`: increment a neighbor that is in bounds and
not itself a mine (used only during board generation). -/
def updateBoard (size : Nat) (b : Int → Int → Int) (x y : Int) : Int → Int → Int :=
  if isValidPoint size x y ∧ b x y ≠ -1 then
    fun a c => if a = x ∧ c = y then b x y + 1 else b a c
  else b

/-- One iteration of the loop in `Minesweeper._generate_board`:
`i, j = divmod(num, size); board[i, j] = -1;
_find_neighbors(_update_board, i, j)`. -/
def placeMine (size : Nat) (b : Int → Int → Int) (num : Nat) : Int → Int → Int :=
  OFFSETS.foldl
    (fun bb d => updateBoard size bb (((num / size : Nat) : Int) + d.1) (((num % size : Nat) : Int) + d.2))
    (fun a c => if a = ((num / size : Nat) : Int) ∧ c = ((num % size : Nat) : Int) then -1 else b a c)

/-- The board-building loop of `Minesweeper._generate_board`, applied to the
accepted random sample `mines` (flattened indices of the mines). -/
def generateBoardFrom (size : Nat) (mines : List Nat) (b : Int → Int → Int) : Int → Int → Int :=
  mines.foldl (placeMine size) b

/-- `Minesweeper._make_visible`, with a fuel parameter making the
mutation-driven recursion structural.  `uncover_square` supplies
`size * size + 3` fuel, which the fuel lemmas below prove ample. -/
def makeVisible : Nat → Game → Int → Int → Int → Game
  | 0, g, _, _, _ => g
  | f + 1, g, x, y, level =>
    if isValidPoint g.size x y then
      if g.visible x y = 0 ∨ g.visible x y = 3 then
        if g.board x y = 0 then
          OFFSETS.foldl (fun gg d => makeVisible f gg (x + d.1) (y + d.2) (-1)) (setVisible g x y 1)
        else setVisible g x y 1
      else if level = 0 ∧ g.visible x y = 1 ∧ g.board x y = (countNeighboringFlags g x y : Int) then
        OFFSETS.foldl (fun gg d => makeVisible f gg (x + d.1) (y + d.2) 1) g
      else if level = 1 ∧ (g.visible x y = 0 ∨ g.visible x y = 3) then
        setVisible g x y 1
      else g
    else g

/-- Row-major list of all cell coordinates of a `size × size` board
(the iteration order of `np.ndindex`). -/
def cellsList (size : Nat) : List (Nat × Nat) :=
  (List.range (size * size)).map fun k => (k / size, k % size)

/-- The scan loop of `Minesweeper._check_game_status`: return `lost` at the
first visible mine, remember whether some safe cell is still covered. -/
def checkCells (g : Game) : List (Nat × Nat) → Bool → Status
  | [], inProg => if inProg then Status.inProgress else Status.won
  | c :: rest, inProg =>
    if g.visible (c.1 : Int) (c.2 : Int) = 1 ∧ g.board (c.1 : Int) (c.2 : Int) = -1 then Status.lost
    else if g.visible (c.1 : Int) (c.2 : Int) ≠ 1 ∧ g.board (c.1 : Int) (c.2 : Int) ≠ -1 then
      checkCells g rest true
    else checkCells g rest inProg

/-- `Minesweeper._check_game_status`. -/
def checkGameStatus (g : Game) : Status :=
  checkCells g (cellsList g.size) false

/-- `Minesweeper._generate_board` minus the rejection loop: the board is
rebuilt from the accepted sample (the sample's acceptance condition
`value not in mines_nums` is a hypothesis of the theorems). -/
def generate_board (g : Game) (mines : List Nat) : Game :=
  { g with board := generateBoardFrom g.size mines g.board }

/-- `Minesweeper.uncover_square`.  `mines` is the accepted random sample used
if this is the first move.  `none` models the `IndexError` numpy raises for
an index outside `[-size, size)`; note that `_make_visible` is called with
the original (possibly negative) coordinates, exactly as in the source. -/
def uncover_square (g : Game) (mines : List Nat) (x y : Int) : Option (Game × Status) :=
  let g1 := if g.firstMove then { generate_board g mines with firstMove := false } else g
  match npIdx g1.size x, npIdx g1.size y with
  | some a, some b =>
    if 2 ≤ g1.visible a b ∧ g1.visible a b < 3 then some (g1, g1.status)
    else if g1.board a b = -1 then some ({ g1 with status := Status.lost }, Status.lost)
    else
      let g2 := makeVisible (g1.size * g1.size + 3) g1 x y 0
      let g3 := { g2 with status := checkGameStatus g2 }
      some (g3, g3.status)
  | _, _ => none

/-- `Minesweeper.mark_square`.  `none` models numpy's `IndexError`. -/
def mark_square (g : Game) (x y : Int) : Option Game :=
  match npIdx g.size x, npIdx g.size y with
  | some a, some b =>
    if g.visible a b = 0 then
      some { setVisible g a b 2 with playerMineCount := g.playerMineCount + 1 }
    else if g.visible a b = 2 then
      some { setVisible g a b 3 with playerMineCount := g.playerMineCount - 1 }
    else if g.visible a b = 3 then
      some (setVisible g a b 0)
    else some g
  | _, _ => none

/-- `Minesweeper.__init__` (with an integer `indent`, so the
`os.get_terminal_size` branch is not taken).  Note that it performs no
validation whatsoever. -/
def Minesweeper.init (size : Nat) (mines : Nat) (indent : Int) : Game :=
  { size := size, mineCount := mines, playerMineCount := 0, indent := indent,
    firstMove := true, status := Status.inProgress,
    board := fun _ _ => 0, visible := fun _ _ => 0 }

/-- Number of in-bounds cells that are hidden or question-marked; the
termination measure of `_make_visible`. -/
def hiddenCount (g : Game) : Nat :=
  (cellsList g.size).countP fun p =>
    (g.visible (p.1 : Int) (p.2 : Int) == 0) || (g.visible (p.1 : Int) (p.2 : Int) == 3)

/-- The flood-fill closure of `(x0, y0)`: the connected component of
zero-count cells containing `(x0, y0)` together with the cells immediately
bordering it (every step leaves an in-bounds zero-count cell through one of
the 8 offsets and lands in bounds). -/
inductive Reach (s : Nat) (B : Int → Int → Int) (x0 y0 : Int) : Int → Int → Prop where
  | refl : Reach s B x0 y0 x0 y0
  | step {x y : Int} (d : Int × Int) :
      Reach s B x0 y0 x y → isValidPoint s x y → B x y = 0 →
      d ∈ OFFSETS → isValidPoint s (x + d.1) (y + d.2) →
      Reach s B x0 y0 (x + d.1) (y + d.2)

/-- Every in-bounds cell is hidden or question-marked (a freshly generated
board before any reveal/flag). -/
def AllHidden (g : Game) : Prop :=
  ∀ i : Nat, i < g.size → ∀ j : Nat, j < g.size →
    g.visible (i : Int) (j : Int) = 0 ∨ g.visible (i : Int) (j : Int) = 3

/-- Every in-bounds cell is hidden, revealed or question-marked (no flags). -/
def Vis013 (g : Game) : Prop :=
  ∀ a b : Int, isValidPoint g.size a b →
    g.visible a b = 0 ∨ g.visible a b = 1 ∨ g.visible a b = 3

/-- Number of in-bounds neighbors of `(x, y)` whose board value is the mine
value `-1`. -/
def mineNeighborCountB (g : Game) (x y : Int) : Nat :=
  OFFSETS.countP fun d =>
    isValidPoint g.size (x + d.1) (y + d.2) && (g.board (x + d.1) (y + d.2) == -1)

/-- The board is internally consistent: every in-bounds non-mine cell stores
the exact number of its in-bounds neighbors that are mines (what
`_generate_board` establishes). -/
def BoardConsistent (g : Game) : Prop :=
  ∀ i : Nat, i < g.size → ∀ j : Nat, j < g.size → g.board (i : Int) (j : Int) ≠ -1 →
    g.board (i : Int) (j : Int) = (mineNeighborCountB g (i : Int) (j : Int) : Int)

/-- Number of in-bounds neighbors of `(x, y)` whose flattened index is in the
sample `mines`. -/
def mineNeighborCount (size : Nat) (mines : List Nat) (x y : Int) : Nat :=
  OFFSETS.countP fun d =>
    isValidPoint size (x + d.1) (y + d.2) &&
      decide ((x + d.1).toNat * size + (y + d.2).toNat ∈ mines)

/-- A possible output of `np.random.default_rng().choice(n, size=count,
replace=False)`: `count` distinct values below `n`. -/
def validSample (n count : Nat) (sample : List Nat) : Prop :=
  sample.Nodup ∧ sample.length = count ∧ ∀ m ∈ sample, m < n

/-- Forget the stored status (used to state that an operation's effect on
everything except the stored status is status-independent). -/
def eraseStatus (g : Game) : Game :=
  { g with status := Status.inProgress }

/-- The visibility code of cell `(a, b)` after `uncover_square` (`none` when
`uncover_square` raises). -/
def uncoverVis (g : Game) (mines : List Nat) (x y a b : Int) : Option Nat :=
  (uncover_square g mines x y).map fun p => p.1.visible a b

/-- The status returned by `uncover_square` (`none` when it raises). -/
def uncoverStatus (g : Game) (mines : List Nat) (x y : Int) : Option Status :=
  (uncover_square g mines x y).map fun p => p.2

/-- The board value of cell `(a, b)` after `uncover_square`. -/
def uncoverBoardAt (g : Game) (mines : List Nat) (x y a b : Int) : Option Int :=
  (uncover_square g mines x y).map fun p => p.1.board a b

/-- The visibility code of cell `(a, b)` after `mark_square`. -/
def markVisAt (g : Game) (x y a b : Int) : Option Nat :=
  (mark_square g x y).map fun g2 => g2.visible a b

/-- The effective cell index numpy uses for an in-range index (identity for
`0 ≤ i`, `i + size` for negative `i ≥ -size`). -/
def normIdx (size : Nat) (i : Int) : Int :=
  if 0 ≤ i then i else i + (size : Int)

/-- How one `_make_visible` call may transform the state: every field except
`_visible` is untouched, and a cell's visibility either stays what it was or
becomes 1, the latter only for an in-bounds cell that was hidden or
question-marked. -/
def MVStep (g h : Game) : Prop :=
  h.size = g.size ∧ h.board = g.board ∧ h.status = g.status ∧
  h.mineCount = g.mineCount ∧ h.playerMineCount = g.playerMineCount ∧
  h.firstMove = g.firstMove ∧ h.indent = g.indent ∧
  ∀ a b : Int, h.visible a b = g.visible a b ∨
    (h.visible a b = 1 ∧ (g.visible a b = 0 ∨ g.visible a b = 3) ∧
      isValidPoint g.size a b = true)

/-- Concrete 2-by-2 game, mine at (0,0), board generated, nothing revealed,
stored status `lost` (the position right after revealing the mine loses the
game: the losing reveal sets only the status, not any visibility). -/
def gC1 : Game :=
  { size := 2, mineCount := 1, playerMineCount := 0, indent := 0, firstMove := false,
    status := Status.lost,
    board := fun a b => if a = 0 ∧ b = 0 then -1 else 1,
    visible := fun _ _ => 0 }

/-- Concrete 3-by-3 game, mine at (0,0): cell (0,1) is Revealed with count 1
and the single flag sits on (0,0), so (0,1) is chord-ready. -/
def gC2 : Game :=
  { size := 3, mineCount := 1, playerMineCount := 1, indent := 0, firstMove := false,
    status := Status.inProgress,
    board := fun a b =>
      if a = 0 ∧ b = 0 then -1
      else if (a = 0 ∧ b = 1) ∨ (a = 1 ∧ b = 0) ∨ (a = 1 ∧ b = 1) then 1 else 0,
    visible := fun a b => if a = 0 ∧ b = 1 then 1 else if a = 0 ∧ b = 0 then 2 else 0 }

/-- Concrete 3-by-3 game with no mines (all counts zero) whose middle column
x = 1 is entirely Flagged: flags cut the flood fill in half. -/
def gC3 : Game :=
  { size := 3, mineCount := 0, playerMineCount := 3, indent := 0, firstMove := false,
    status := Status.inProgress,
    board := fun _ _ => 0,
    visible := fun a _ => if a = 1 then 2 else 0 }

/-- Concrete 2-by-2 mine-free game, everything hidden. -/
def gW3 : Game :=
  { size := 2, mineCount := 0, playerMineCount := 0, indent := 0, firstMove := false,
    status := Status.inProgress,
    board := fun _ _ => 0,
    visible := fun _ _ => 0 }

/-- Concrete 2-by-2 game, mine at (1,1), all three safe cells Revealed (a won
position), the mine still hidden. -/
def gC6 : Game :=
  { size := 2, mineCount := 1, playerMineCount := 0, indent := 0, firstMove := false,
    status := Status.won,
    board := fun a b => if a = 1 ∧ b = 1 then -1 else 1,
    visible := fun a b => if a = 1 ∧ b = 1 then 0 else 1 }

/-- Concrete 1-by-1 mine-free game, hidden. -/
def gW6 : Game :=
  { size := 1, mineCount := 0, playerMineCount := 0, indent := 0, firstMove := false,
    status := Status.inProgress,
    board := fun _ _ => 0,
    visible := fun _ _ => 0 }

/-- Concrete 2-by-2 game, mine at (0,0), cell (1,1) carries a question mark. -/
def gC8 : Game :=
  { size := 2, mineCount := 1, playerMineCount := 0, indent := 0, firstMove := false,
    status := Status.inProgress,
    board := fun a b => if a = 0 ∧ b = 0 then -1 else 1,
    visible := fun a b => if a = 1 ∧ b = 1 then 3 else 0 }

/-- Concrete 3-by-3 mine-free game, everything hidden. -/
def gC9 : Game :=
  { size := 3, mineCount := 0, playerMineCount := 0, indent := 0, firstMove := false,
    status := Status.inProgress,
    board := fun _ _ => 0,
    visible := fun _ _ => 0 }

/-- Concrete 3-by-3 game, mine at (0,0) with correct neighbor counts,
everything hidden. -/
def gW10 : Game :=
  { size := 3, mineCount := 1, playerMineCount := 0, indent := 0, firstMove := false,
    status := Status.inProgress,
    board := fun a b =>
      if a = 0 ∧ b = 0 then -1
      else if (a = 0 ∧ b = 1) ∨ (a = 1 ∧ b = 0) ∨ (a = 1 ∧ b = 1) then 1 else 0,
    visible := fun _ _ => 0 }

/-- Trace for the chord-loss scenario: fresh 3-by-3 game with 2 mines, the
accepted random sample being flat indices 0 and 8 (mines at (0,0) and (2,2)),
first reveal at (1,1) (its count is 2). -/
def c10t1 : Option (Game × Status) :=
  uncover_square (Minesweeper.init 3 2 0) [0, 8] 1 1

/-- The trace continues: flag (0,1) and (1,0) (both wrong flags). -/
def c10g3 : Option Game :=
  ((c10t1.map Prod.fst).bind fun h => mark_square h 0 1).bind fun h => mark_square h 1 0

/-- The trace ends with a chord reveal on the Revealed safe cell (1,1): its
count 2 matches the 2 flags around it. -/
def c10t4 : Option (Game × Status) :=
  c10g3.bind fun h => uncover_square h [] 1 1

/-! ### Basic facts about offsets, bounds and the cell list -/

theorem offsets_ne_zero : ∀ d ∈ OFFSETS, ¬(d.1 = 0 ∧ d.2 = 0) := by decide

theorem offsets_neg_mem : ∀ d ∈ OFFSETS, (-d.1, -d.2) ∈ OFFSETS := by decide

theorem offsets_nodup : OFFSETS.Nodup := by decide

theorem isValidPoint_iff {s : Nat} {x y : Int} :
    isValidPoint s x y = true ↔ 0 ≤ x ∧ x < (s : Int) ∧ 0 ≤ y ∧ y < (s : Int) := by
  simp [isValidPoint, and_assoc]

theorem isValidPoint_natCast {s i j : Nat} :
    isValidPoint s (i : Int) (j : Int) = true ↔ i < s ∧ j < s := by
  simp [isValidPoint_iff]

theorem isValidPoint_toNat {s : Nat} {x y : Int} (h : isValidPoint s x y = true) :
    x = ((x.toNat : Nat) : Int) ∧ y = ((y.toNat : Nat) : Int) ∧ x.toNat < s ∧ y.toNat < s := by
  rw [isValidPoint_iff] at h
  omega

theorem flat_lt {n i j : Nat} (hi : i < n) (hj : j < n) : i * n + j < n * n :=
  calc i * n + j < i * n + n := by omega
    _ ≤ n * n := by
        have : (i + 1) * n ≤ n * n := Nat.mul_le_mul_right n hi
        calc i * n + n = (i + 1) * n := by ring
          _ ≤ n * n := this

theorem flat_div {n i j : Nat} (hj : j < n) : (i * n + j) / n = i := by
  rw [Nat.add_comm, Nat.add_mul_div_right _ _ (by omega : 0 < n),
    Nat.div_eq_of_lt hj]
  omega

theorem flat_mod {n i j : Nat} (hj : j < n) : (i * n + j) % n = j := by
  rw [Nat.add_comm, Nat.add_mul_mod_self_right, Nat.mod_eq_of_lt hj]

theorem flat_inj {n i1 j1 i2 j2 : Nat} (hj1 : j1 < n) (hj2 : j2 < n)
    (h : i1 * n + j1 = i2 * n + j2) : i1 = i2 ∧ j1 = j2 := by
  have h1 : (i1 * n + j1) / n = i1 := flat_div hj1
  have h2 : (i2 * n + j2) / n = i2 := flat_div hj2
  have h3 : (i1 * n + j1) % n = j1 := flat_mod hj1
  have h4 : (i2 * n + j2) % n = j2 := flat_mod hj2
  rw [h] at h1 h3
  omega

theorem mem_cellsList {n : Nat} {p : Nat × Nat} :
    p ∈ cellsList n ↔ p.1 < n ∧ p.2 < n := by
  constructor
  · intro hp
    simp only [cellsList, List.mem_map, List.mem_range] at hp
    obtain ⟨k, hk, rfl⟩ := hp
    have hn : 0 < n := by
      rcases Nat.eq_zero_or_pos n with h | h
      · subst h; omega
      · exact h
    constructor
    · exact Nat.div_lt_iff_lt_mul hn |>.mpr hk
    · exact Nat.mod_lt _ hn
  · intro ⟨h1, h2⟩
    simp only [cellsList, List.mem_map, List.mem_range]
    exact ⟨p.1 * n + p.2, flat_lt h1 h2, by
      rw [flat_div h2, flat_mod h2]⟩

theorem cellsList_nodup (n : Nat) : (cellsList n).Nodup := by
  refine List.Nodup.map_on ?_ (List.nodup_range _)
  intro a ha b hb hab
  simp only [List.mem_range] at ha hb
  have hn : 0 < n := by
    rcases Nat.eq_zero_or_pos n with h | h
    · subst h; omega
    · exact h
  have h1 : a / n = b / n := (Prod.ext_iff.mp hab).1
  have h2 : a % n = b % n := (Prod.ext_iff.mp hab).2
  have h3 := Nat.div_add_mod a n
  have h4 := Nat.div_add_mod b n
  rw [h1, h2] at h3
  omega

theorem cellsList_length (n : Nat) : (cellsList n).length = n * n := by
  simp [cellsList]


/-! ### `setVisible` and `MVStep` -/

theorem setVisible_size (g : Game) (x y : Int) (v : Nat) : (setVisible g x y v).size = g.size := rfl

theorem setVisible_board (g : Game) (x y : Int) (v : Nat) : (setVisible g x y v).board = g.board := rfl

theorem setVisible_self (g : Game) (x y : Int) (v : Nat) : (setVisible g x y v).visible x y = v := by
  simp [setVisible]

theorem setVisible_vis (g : Game) (x y : Int) (v : Nat) (a b : Int) :
    (setVisible g x y v).visible a b = if a = x ∧ b = y then v else g.visible a b := rfl

theorem mvStep_refl (g : Game) : MVStep g g := by
  unfold MVStep
  refine ⟨rfl, rfl, rfl, rfl, rfl, rfl, rfl, fun a b => Or.inl rfl⟩

theorem mvStep_trans {g h k : Game} (h1 : MVStep g h) (h2 : MVStep h k) : MVStep g k := by
  unfold MVStep at h1 h2 ⊢
  obtain ⟨hs1, hb1, hst1, hm1, hp1, hf1, hi1, hv1⟩ := h1
  obtain ⟨hs2, hb2, hst2, hm2, hp2, hf2, hi2, hv2⟩ := h2
  refine ⟨hs2.trans hs1, hb2.trans hb1, hst2.trans hst1, hm2.trans hm1, hp2.trans hp1,
    hf2.trans hf1, hi2.trans hi1, fun a b => ?_⟩
  rcases hv2 a b with h | ⟨h1', h2', h3'⟩
  · rw [h]; exact hv1 a b
  · rcases hv1 a b with h | ⟨ha, hb', hc⟩
    · exact Or.inr ⟨h1', by rw [← h]; exact h2', by rw [← hs1]; exact h3'⟩
    · rcases h2' with h2' | h2' <;> rw [ha] at h2' <;> omega

theorem mvStep_setVisible {g : Game} {x y : Int} (hv : isValidPoint g.size x y = true)
    (h03 : g.visible x y = 0 ∨ g.visible x y = 3) : MVStep g (setVisible g x y 1) := by
  unfold MVStep
  refine ⟨rfl, rfl, rfl, rfl, rfl, rfl, rfl, fun a b => ?_⟩
  rw [setVisible_vis]
  by_cases h : a = x ∧ b = y
  · obtain ⟨rfl, rfl⟩ := h
    right
    refine ⟨by simp, h03, hv⟩
  · rw [if_neg h]; exact Or.inl rfl

theorem foldl_mvStep {L : List (Int × Int)} {step : Game → Int × Int → Game}
    (hstep : ∀ g d, d ∈ L → MVStep g (step g d)) :
    ∀ g : Game, MVStep g (L.foldl step g) := by
  induction L with
  | nil => intro g; exact mvStep_refl g
  | cons e L ih =>
    intro g
    simp only [List.foldl_cons]
    exact mvStep_trans (hstep g e (by simp))
      (ih (fun g' d hd => hstep g' d (by simp [hd])) (step g e))

theorem makeVisible_mvStep : ∀ (f : Nat) (g : Game) (x y l : Int), MVStep g (makeVisible f g x y l) := by
  intro f
  induction f with
  | zero => intro g x y l; exact mvStep_refl g
  | succ f ih =>
    intro g x y l
    rw [makeVisible]
    by_cases hval : isValidPoint g.size x y = true
    · rw [if_pos hval]
      by_cases h03 : g.visible x y = 0 ∨ g.visible x y = 3
      · rw [if_pos h03]
        by_cases hb : g.board x y = 0
        · rw [if_pos hb]
          exact mvStep_trans (mvStep_setVisible hval h03)
            (foldl_mvStep (fun g' d _ => ih g' (x + d.1) (y + d.2) (-1)) _)
        · rw [if_neg hb]
          exact mvStep_setVisible hval h03
      · rw [if_neg h03]
        by_cases hch : l = 0 ∧ g.visible x y = 1 ∧ g.board x y = (countNeighboringFlags g x y : Int)
        · rw [if_pos hch]
          exact foldl_mvStep (fun g' d _ => ih g' (x + d.1) (y + d.2) 1) g
        · rw [if_neg hch]
          by_cases hl1 : l = 1 ∧ (g.visible x y = 0 ∨ g.visible x y = 3)
          · exact absurd hl1.2 h03
          · rw [if_neg hl1]
            exact mvStep_refl g
    · rw [if_neg hval]
      exact mvStep_refl g

theorem makeVisible_size (f : Nat) (g : Game) (x y l : Int) :
    (makeVisible f g x y l).size = g.size := (makeVisible_mvStep f g x y l).1

theorem makeVisible_board (f : Nat) (g : Game) (x y l : Int) :
    (makeVisible f g x y l).board = g.board := (makeVisible_mvStep f g x y l).2.1

theorem mvStep_vis_cases {g h : Game} (hgh : MVStep g h) (a b : Int) :
    h.visible a b = g.visible a b ∨
      (h.visible a b = 1 ∧ (g.visible a b = 0 ∨ g.visible a b = 3) ∧
        isValidPoint g.size a b = true) := hgh.2.2.2.2.2.2.2 a b

theorem mvStep_vis_one {g h : Game} (hgh : MVStep g h) {a b : Int}
    (h1 : g.visible a b = 1) : h.visible a b = 1 := by
  rcases mvStep_vis_cases hgh a b with h' | ⟨h', _, _⟩
  · rw [h', h1]
  · exact h'

theorem mvStep_vis_keep {g h : Game} (hgh : MVStep g h) {a b : Int} {v : Nat}
    (hv : g.visible a b = v) (hne0 : v ≠ 0) (hne3 : v ≠ 3) : h.visible a b = v := by
  rcases mvStep_vis_cases hgh a b with h' | ⟨_, h2, _⟩
  · rw [h', hv]
  · rw [hv] at h2; omega

theorem vis013_mvStep {g h : Game} (hgh : MVStep g h) (hg : Vis013 g) : Vis013 h := by
  intro a b hv
  rw [hgh.1] at hv
  rcases mvStep_vis_cases hgh a b with h' | ⟨h1, _, _⟩
  · rw [h']; exact hg a b hv
  · rw [h1]; omega


/-! ### `hiddenCount` bookkeeping -/

theorem hiddenCount_mono {g h : Game} (hgh : MVStep g h) : hiddenCount h ≤ hiddenCount g := by
  unfold hiddenCount
  rw [hgh.1]
  refine List.countP_mono_left ?_
  intro p _ hp
  rcases mvStep_vis_cases hgh (p.1 : Int) (p.2 : Int) with h' | ⟨h1, _, _⟩
  · rwa [h'] at hp
  · rw [h1] at hp; simp at hp

theorem hiddenCount_setVisible_lt {g : Game} {x y : Int}
    (hv : isValidPoint g.size x y = true) (h03 : g.visible x y = 0 ∨ g.visible x y = 3) :
    hiddenCount (setVisible g x y 1) < hiddenCount g := by
  obtain ⟨hx, hy, hxs, hys⟩ := isValidPoint_toNat hv
  have hmem : (x.toNat, y.toNat) ∈ cellsList g.size := mem_cellsList.mpr ⟨hxs, hys⟩
  obtain ⟨l1, l2, hsplit⟩ := List.append_of_mem hmem
  unfold hiddenCount
  rw [setVisible_size, hsplit, List.countP_append, List.countP_append]
  have hpoint : ∀ q : Nat × Nat,
      (((setVisible g x y 1).visible (q.1 : Int) (q.2 : Int) == 0) ||
        ((setVisible g x y 1).visible (q.1 : Int) (q.2 : Int) == 3)) = true →
      ((g.visible (q.1 : Int) (q.2 : Int) == 0) || (g.visible (q.1 : Int) (q.2 : Int) == 3)) = true := by
    intro q hq
    rw [setVisible_vis] at hq
    by_cases h : (q.1 : Int) = x ∧ (q.2 : Int) = y
    · rw [if_pos h] at hq; simp at hq
    · rwa [if_neg h] at hq
  have h1 : l1.countP (fun q => ((setVisible g x y 1).visible (q.1 : Int) (q.2 : Int) == 0) ||
        ((setVisible g x y 1).visible (q.1 : Int) (q.2 : Int) == 3)) ≤
      l1.countP (fun q => (g.visible (q.1 : Int) (q.2 : Int) == 0) ||
        (g.visible (q.1 : Int) (q.2 : Int) == 3)) :=
    List.countP_mono_left (fun q _ => hpoint q)
  have h2 : l2.countP (fun q => ((setVisible g x y 1).visible (q.1 : Int) (q.2 : Int) == 0) ||
        ((setVisible g x y 1).visible (q.1 : Int) (q.2 : Int) == 3)) ≤
      l2.countP (fun q => (g.visible (q.1 : Int) (q.2 : Int) == 0) ||
        (g.visible (q.1 : Int) (q.2 : Int) == 3)) :=
    List.countP_mono_left (fun q _ => hpoint q)
  have hheadnew : ((setVisible g x y 1).visible ((x.toNat : Nat) : Int) ((y.toNat : Nat) : Int) == 0 ||
      ((setVisible g x y 1).visible ((x.toNat : Nat) : Int) ((y.toNat : Nat) : Int) == 3)) = false := by
    rw [setVisible_vis, if_pos ⟨hx.symm, hy.symm⟩]
    simp
  have hheadold : ((g.visible ((x.toNat : Nat) : Int) ((y.toNat : Nat) : Int) == 0) ||
      (g.visible ((x.toNat : Nat) : Int) ((y.toNat : Nat) : Int) == 3)) = true := by
    rw [← hx, ← hy]
    rcases h03 with h | h <;> simp [h]
  rw [List.countP_cons, List.countP_cons]
  simp only [hheadnew, hheadold]
  norm_num
  omega

/-! ### Flipping a hidden cell -/

theorem makeVisible_flip {f : Nat} {g : Game} {x y l : Int}
    (hv : isValidPoint g.size x y = true) (h03 : g.visible x y = 0 ∨ g.visible x y = 3) :
    (makeVisible (f + 1) g x y l).visible x y = 1 := by
  rw [makeVisible, if_pos hv, if_pos h03]
  by_cases hb : g.board x y = 0
  · rw [if_pos hb]
    exact mvStep_vis_one
      (foldl_mvStep (fun g' d _ => makeVisible_mvStep f g' (x + d.1) (y + d.2) (-1)) _)
      (setVisible_self g x y 1)
  · rw [if_neg hb]; exact setVisible_self g x y 1

theorem foldl_makeVisible_flip (f : Nat) (x y lv : Int) :
    ∀ (L : List (Int × Int)) (g : Game) (d : Int × Int), d ∈ L →
      isValidPoint g.size (x + d.1) (y + d.2) = true →
      (g.visible (x + d.1) (y + d.2) = 0 ∨ g.visible (x + d.1) (y + d.2) = 1 ∨
        g.visible (x + d.1) (y + d.2) = 3) →
      (L.foldl (fun gg e => makeVisible (f + 1) gg (x + e.1) (y + e.2) lv) g).visible
        (x + d.1) (y + d.2) = 1 := by
  intro L
  induction L with
  | nil => intro g d hd _ _; simp at hd
  | cons e L ih =>
    intro g d hd hval hvis
    simp only [List.foldl_cons]
    have hstep1 : MVStep g (makeVisible (f + 1) g (x + e.1) (y + e.2) lv) :=
      makeVisible_mvStep _ _ _ _ _
    rcases List.mem_cons.mp hd with rfl | hdL
    · have h1 : (makeVisible (f + 1) g (x + d.1) (y + d.2) lv).visible (x + d.1) (y + d.2) = 1 := by
        rcases hvis with h | h | h
        · exact makeVisible_flip hval (Or.inl h)
        · exact mvStep_vis_one hstep1 h
        · exact makeVisible_flip hval (Or.inr h)
      exact mvStep_vis_one
        (foldl_mvStep (fun g' e' _ => makeVisible_mvStep _ _ _ _ _) _) h1
    · apply ih _ d hdL
      · rw [hstep1.1]; exact hval
      · rcases mvStep_vis_cases hstep1 (x + d.1) (y + d.2) with h' | ⟨h1, _, _⟩
        · rw [h']; exact hvis
        · rw [h1]; right; left; rfl


/-! ### `_make_visible` and `_check_game_status` read only size, board, visible -/

theorem countNeighboringFlags_congr {g1 g2 : Game} (hs : g1.size = g2.size)
    (hv : g1.visible = g2.visible) (x y : Int) :
    countNeighboringFlags g1 x y = countNeighboringFlags g2 x y := by
  unfold countNeighboringFlags
  rw [hs, hv]

theorem makeVisible_congr : ∀ (f : Nat) (g1 g2 : Game) (x y l : Int),
    g1.size = g2.size → g1.board = g2.board → g1.visible = g2.visible →
    (makeVisible f g1 x y l).visible = (makeVisible f g2 x y l).visible := by
  intro f
  induction f with
  | zero => intro g1 g2 x y l _ _ hv; exact hv
  | succ f ih =>
    intro g1 g2 x y l hs hb hv
    have hfold : ∀ (lv : Int) (L : List (Int × Int)) (h1 h2 : Game),
        h1.size = h2.size → h1.board = h2.board → h1.visible = h2.visible →
        (L.foldl (fun gg d => makeVisible f gg (x + d.1) (y + d.2) lv) h1).visible =
          (L.foldl (fun gg d => makeVisible f gg (x + d.1) (y + d.2) lv) h2).visible := by
      intro lv L
      induction L with
      | nil => intro h1 h2 _ _ hv'; exact hv'
      | cons e L ihL =>
        intro h1 h2 hs' hb' hv'
        simp only [List.foldl_cons]
        refine ihL _ _ ?_ ?_ ?_
        · rw [makeVisible_size, makeVisible_size, hs']
        · rw [makeVisible_board, makeVisible_board, hb']
        · exact ih h1 h2 (x + e.1) (y + e.2) lv hs' hb' hv'
    rw [makeVisible, makeVisible, hs, hb, hv]
    by_cases hval : isValidPoint g2.size x y = true
    · rw [if_pos hval, if_pos hval]
      by_cases h03 : g2.visible x y = 0 ∨ g2.visible x y = 3
      · rw [if_pos h03, if_pos h03]
        by_cases hbz : g2.board x y = 0
        · rw [if_pos hbz, if_pos hbz]
          refine hfold (-1) OFFSETS (setVisible g1 x y 1) (setVisible g2 x y 1) hs hb ?_
          simp [setVisible, hv]
        · rw [if_neg hbz, if_neg hbz]
          simp [setVisible, hv]
      · rw [if_neg h03, if_neg h03]
        rw [countNeighboringFlags_congr hs hv]
        by_cases hch : l = 0 ∧ g2.visible x y = 1 ∧ g2.board x y = (countNeighboringFlags g2 x y : Int)
        · rw [if_pos hch, if_pos hch]
          exact hfold 1 OFFSETS g1 g2 hs hb hv
        · rw [if_neg hch, if_neg hch]
          by_cases hl1 : l = 1 ∧ (g2.visible x y = 0 ∨ g2.visible x y = 3)
          · rw [if_pos hl1, if_pos hl1]
            simp [setVisible, hv]
          · rw [if_neg hl1, if_neg hl1]
            exact hv
    · rw [if_neg hval, if_neg hval]
      exact hv

theorem checkCells_congr {g1 g2 : Game} (hv : g1.visible = g2.visible)
    (hb : g1.board = g2.board) : ∀ (L : List (Nat × Nat)) (pr : Bool),
    checkCells g1 L pr = checkCells g2 L pr := by
  intro L
  induction L with
  | nil => intro pr; rfl
  | cons c L ihL =>
    intro pr
    rw [checkCells, checkCells, hv, hb]
    by_cases h1 : g2.visible (c.1 : Int) (c.2 : Int) = 1 ∧ g2.board (c.1 : Int) (c.2 : Int) = -1
    · rw [if_pos h1, if_pos h1]
    · rw [if_neg h1, if_neg h1]
      by_cases h2 : g2.visible (c.1 : Int) (c.2 : Int) ≠ 1 ∧ g2.board (c.1 : Int) (c.2 : Int) ≠ -1
      · rw [if_pos h2, if_pos h2, ihL]
      · rw [if_neg h2, if_neg h2, ihL]

theorem checkGameStatus_congr {g1 g2 : Game} (hs : g1.size = g2.size)
    (hv : g1.visible = g2.visible) (hb : g1.board = g2.board) :
    checkGameStatus g1 = checkGameStatus g2 := by
  unfold checkGameStatus
  rw [hs, checkCells_congr hv hb]

/-! ### Unfolding `uncover_square` under in-bounds coordinates -/

theorem npIdx_of_nonneg {size : Nat} {x : Int} (h0 : 0 ≤ x) (hs : x < (size : Int)) :
    npIdx size x = some x := by
  simp [npIdx, h0, hs]

theorem npIdx_of_neg {size : Nat} {x : Int} (h0 : -(size : Int) ≤ x) (hs : x < 0) :
    npIdx size x = some (x + (size : Int)) := by
  have : ¬(0 ≤ x ∧ x < (size : Int)) := by omega
  simp [npIdx, this, h0, hs]

theorem npIdx_none {size : Nat} {x : Int} (h : x < -(size : Int) ∨ (size : Int) ≤ x) :
    npIdx size x = none := by
  have h1 : ¬(0 ≤ x ∧ x < (size : Int)) := by omega
  have h2 : ¬(-(size : Int) ≤ x ∧ x < 0) := by omega
  simp [npIdx, h1, h2]

theorem uncover_eq_pass {g : Game} {mines : List Nat} {x y : Int}
    (hfm : g.firstMove = false) (hx0 : 0 ≤ x) (hxs : x < (g.size : Int))
    (hy0 : 0 ≤ y) (hys : y < (g.size : Int)) (hflag : g.visible x y = 2) :
    uncover_square g mines x y = some (g, g.status) := by
  unfold uncover_square
  rw [hfm]
  simp only [if_neg (by simp : ¬(true = false)), Bool.false_eq_true, if_false]
  rw [npIdx_of_nonneg hx0 hxs, npIdx_of_nonneg hy0 hys]
  dsimp only
  rw [hflag]
  norm_num

theorem uncover_eq_mine {g : Game} {mines : List Nat} {x y : Int}
    (hfm : g.firstMove = false) (hx0 : 0 ≤ x) (hxs : x < (g.size : Int))
    (hy0 : 0 ≤ y) (hys : y < (g.size : Int)) (hnotflag : g.visible x y ≠ 2)
    (hmine : g.board x y = -1) :
    uncover_square g mines x y = some ({ g with status := Status.lost }, Status.lost) := by
  unfold uncover_square
  rw [hfm]
  simp only [Bool.false_eq_true, if_false]
  rw [npIdx_of_nonneg hx0 hxs, npIdx_of_nonneg hy0 hys]
  dsimp only
  have hcond : ¬(2 ≤ g.visible x y ∧ g.visible x y < 3) := by omega
  rw [if_neg hcond, if_pos hmine, hfm]

theorem uncover_eq_reveal {g : Game} {mines : List Nat} {x y : Int}
    (hfm : g.firstMove = false) (hx0 : 0 ≤ x) (hxs : x < (g.size : Int))
    (hy0 : 0 ≤ y) (hys : y < (g.size : Int)) (hnotflag : g.visible x y ≠ 2)
    (hnomine : g.board x y ≠ -1) :
    uncover_square g mines x y =
      some ({ makeVisible (g.size * g.size + 3) g x y 0 with
                status := checkGameStatus (makeVisible (g.size * g.size + 3) g x y 0) },
            checkGameStatus (makeVisible (g.size * g.size + 3) g x y 0)) := by
  unfold uncover_square
  rw [hfm]
  simp only [Bool.false_eq_true, if_false]
  rw [npIdx_of_nonneg hx0 hxs, npIdx_of_nonneg hy0 hys]
  dsimp only
  have hcond : ¬(2 ≤ g.visible x y ∧ g.visible x y < 3) := by omega
  rw [if_neg hcond, if_neg hnomine]


/-! ### Soundness of the cascade: new reveals stay inside a closed set -/

theorem makeVisible_sound (s : Nat) (B : Int → Int → Int) (A : Int → Int → Prop)
    (hA : ∀ a b : Int, A a b → isValidPoint s a b = true → B a b = 0 →
      ∀ d ∈ OFFSETS, isValidPoint s (a + d.1) (b + d.2) = true → A (a + d.1) (b + d.2)) :
    ∀ (f : Nat) (g : Game) (x y l : Int), g.size = s → g.board = B →
      (isValidPoint s x y = true → A x y) → (l = 0 → g.visible x y ≠ 1) →
      ∀ a b : Int, (makeVisible f g x y l).visible a b ≠ g.visible a b → A a b := by
  intro f
  induction f with
  | zero => intro g x y l _ _ _ _ a b hab; exact absurd rfl hab
  | succ f ih =>
    intro g x y l hs hb hAxy hch a b hab
    rw [makeVisible] at hab
    by_cases hval : isValidPoint g.size x y = true
    · rw [if_pos hval] at hab
      have hvals : isValidPoint s x y = true := hs ▸ hval
      by_cases h03 : g.visible x y = 0 ∨ g.visible x y = 3
      · rw [if_pos h03] at hab
        by_cases hbz : g.board x y = 0
        · rw [if_pos hbz] at hab
          have hAx : A x y := hAxy hvals
          have hnbr : ∀ d ∈ OFFSETS, isValidPoint s (x + d.1) (y + d.2) = true →
              A (x + d.1) (y + d.2) :=
            hA x y hAx hvals (hb ▸ hbz)
          have hwalk : ∀ (L : List (Int × Int)), (∀ d ∈ L, d ∈ OFFSETS) →
              ∀ (h : Game), h.size = s → h.board = B →
              ∀ a' b' : Int,
                (L.foldl (fun gg d => makeVisible f gg (x + d.1) (y + d.2) (-1)) h).visible a' b' ≠
                  h.visible a' b' → A a' b' := by
            intro L
            induction L with
            | nil => intro _ h _ _ a' b' hne; exact absurd rfl hne
            | cons e L ihL =>
              intro hsub h hhs hhb a' b' hne
              simp only [List.foldl_cons] at hne
              by_cases hstep : (makeVisible f h (x + e.1) (y + e.2) (-1)).visible a' b' =
                  h.visible a' b'
              · refine ihL (fun d hd => hsub d (by simp [hd]))
                  (makeVisible f h (x + e.1) (y + e.2) (-1)) ?_ ?_ a' b' ?_
                · rw [makeVisible_size, hhs]
                · rw [makeVisible_board, hhb]
                · intro heq; rw [heq] at hne; exact hne hstep
              · exact ih h (x + e.1) (y + e.2) (-1) hhs hhb
                  (fun hv' => hnbr e (hsub e (by simp)) hv')
                  (fun h0 => absurd h0 (by norm_num)) a' b' hstep
          by_cases hset : (setVisible g x y 1).visible a b = g.visible a b
          · refine hwalk OFFSETS (fun d hd => hd) (setVisible g x y 1) ?_ ?_ a b ?_
            · rw [setVisible_size, hs]
            · rw [setVisible_board, hb]
            · rw [hset]; exact hab
          · rw [setVisible_vis] at hset
            by_cases heq : a = x ∧ b = y
            · obtain ⟨rfl, rfl⟩ := heq; exact hAx
            · rw [if_neg heq] at hset; exact absurd rfl hset
        · rw [if_neg hbz] at hab
          rw [setVisible_vis] at hab
          by_cases heq : a = x ∧ b = y
          · obtain ⟨rfl, rfl⟩ := heq; exact hAxy hvals
          · rw [if_neg heq] at hab; exact absurd rfl hab
      · rw [if_neg h03] at hab
        by_cases hchord : l = 0 ∧ g.visible x y = 1 ∧
            g.board x y = (countNeighboringFlags g x y : Int)
        · exact absurd hchord.2.1 (hch hchord.1)
        · rw [if_neg hchord] at hab
          by_cases hl1 : l = 1 ∧ (g.visible x y = 0 ∨ g.visible x y = 3)
          · exact absurd hl1.2 h03
          · rw [if_neg hl1] at hab; exact absurd rfl hab
    · rw [if_neg hval] at hab; exact absurd rfl hab

/-! ### Spreading: a zero-count cell revealed by `_make_visible` has all of
its in-bounds neighbors revealed as well (given ample fuel and no flags) -/

theorem makeVisible_spread :
    ∀ (f : Nat) (g : Game) (x y l c1 c2 : Int),
      Vis013 g →
      hiddenCount g + 2 + (if l = 0 then 1 else 0) ≤ f →
      isValidPoint g.size c1 c2 = true → g.board c1 c2 = 0 →
      g.visible c1 c2 ≠ 1 →
      (makeVisible f g x y l).visible c1 c2 = 1 →
      ∀ d ∈ OFFSETS, isValidPoint g.size (c1 + d.1) (c2 + d.2) = true →
        (makeVisible f g x y l).visible (c1 + d.1) (c2 + d.2) = 1 := by
  intro f
  induction f with
  | zero =>
    intro g x y l c1 c2 _ hfuel
    exfalso
    rcases eq_or_ne l 0 with h | h
    · rw [if_pos h] at hfuel; omega
    · rw [if_neg h] at hfuel; omega
  | succ f ih =>
    intro g x y l c1 c2 hvis013 hfuel hc hbz hne hres d hd hdval
    have hfuel2 : hiddenCount g + 2 ≤ f + 1 := by
      rcases eq_or_ne l 0 with h | h
      · rw [if_pos h] at hfuel; omega
      · rw [if_neg h] at hfuel; omega
    have hwalk : ∀ (lv : Int), lv ≠ 0 →
        ∀ (L : List (Int × Int)) (h : Game),
        h.size = g.size → h.board = g.board → Vis013 h → hiddenCount h + 2 ≤ f →
        h.visible c1 c2 ≠ 1 →
        (L.foldl (fun gg e => makeVisible f gg (x + e.1) (y + e.2) lv) h).visible c1 c2 = 1 →
        (L.foldl (fun gg e => makeVisible f gg (x + e.1) (y + e.2) lv) h).visible
          (c1 + d.1) (c2 + d.2) = 1 := by
      intro lv hlv L
      induction L with
      | nil => intro h _ _ _ _ hne' hres'; exact absurd hres' hne'
      | cons e L ihL =>
        intro h hhs hhb hh013 hhf hne' hres'
        simp only [List.foldl_cons] at hres' ⊢
        have hstep : MVStep h (makeVisible f h (x + e.1) (y + e.2) lv) :=
          makeVisible_mvStep _ _ _ _ _
        by_cases hc1 : (makeVisible f h (x + e.1) (y + e.2) lv).visible c1 c2 = 1
        · have hfuel1 : hiddenCount h + 2 + (if lv = 0 then 1 else 0) ≤ f := by
            rw [if_neg hlv]; omega
          have hc' : isValidPoint h.size c1 c2 = true := by rw [hhs]; exact hc
          have hbz' : h.board c1 c2 = 0 := by rw [hhb]; exact hbz
          have hdval' : isValidPoint h.size (c1 + d.1) (c2 + d.2) = true := by
            rw [hhs]; exact hdval
          have hsp := ih h (x + e.1) (y + e.2) lv c1 c2 hh013 hfuel1 hc' hbz' hne' hc1 d hd hdval'
          exact mvStep_vis_one
            (foldl_mvStep (fun g' e' _ => makeVisible_mvStep _ _ _ _ _) _) hsp
        · refine ihL (makeVisible f h (x + e.1) (y + e.2) lv) ?_ ?_ ?_ ?_ hc1 hres'
          · rw [hstep.1, hhs]
          · rw [hstep.2.1, hhb]
          · exact vis013_mvStep hstep hh013
          · have := hiddenCount_mono hstep; omega
    rw [makeVisible] at hres ⊢
    by_cases hval : isValidPoint g.size x y = true
    · rw [if_pos hval] at hres ⊢
      by_cases h03 : g.visible x y = 0 ∨ g.visible x y = 3
      · rw [if_pos h03] at hres ⊢
        by_cases hbxy : g.board x y = 0
        · rw [if_pos hbxy] at hres ⊢
          have hlt := hiddenCount_setVisible_lt hval h03
          have h013g1 : Vis013 (setVisible g x y 1) :=
            vis013_mvStep (mvStep_setVisible hval h03) hvis013
          by_cases hcc : c1 = x ∧ c2 = y
          · obtain ⟨rfl, rfl⟩ := hcc
            obtain ⟨f', rfl⟩ : ∃ k, f = k + 1 := ⟨f - 1, by omega⟩
            refine foldl_makeVisible_flip f' c1 c2 (-1) OFFSETS (setVisible g c1 c2 1) d hd ?_ ?_
            · rw [setVisible_size]; exact hdval
            · exact h013g1 _ _ (by rw [setVisible_size]; exact hdval)
          · have hg1ne : (setVisible g x y 1).visible c1 c2 ≠ 1 := by
              rw [setVisible_vis, if_neg hcc]; exact hne
            refine hwalk (-1) (by norm_num) OFFSETS (setVisible g x y 1) ?_ ?_ h013g1 ?_ hg1ne hres
            · rw [setVisible_size]
            · rw [setVisible_board]
            · omega
        · rw [if_neg hbxy] at hres
          by_cases hcc : c1 = x ∧ c2 = y
          · obtain ⟨rfl, rfl⟩ := hcc; exact absurd hbz hbxy
          · rw [setVisible_vis, if_neg hcc] at hres; exact absurd hres hne
      · rw [if_neg h03] at hres ⊢
        by_cases hchord : l = 0 ∧ g.visible x y = 1 ∧
            g.board x y = (countNeighboringFlags g x y : Int)
        · rw [if_pos hchord] at hres ⊢
          refine hwalk 1 (by norm_num) OFFSETS g rfl rfl hvis013 ?_ hne hres
          rw [if_pos hchord.1] at hfuel; omega
        · rw [if_neg hchord] at hres ⊢
          by_cases hl1 : l = 1 ∧ (g.visible x y = 0 ∨ g.visible x y = 3)
          · exact absurd hl1.2 h03
          · rw [if_neg hl1] at hres; exact absurd hres hne
    · rw [if_neg hval] at hres; exact absurd hres hne

/-! ### Completeness: the whole flood-fill closure is revealed -/

theorem allHidden_int {g : Game} (hall : AllHidden g) {a b : Int}
    (hv : isValidPoint g.size a b = true) :
    g.visible a b = 0 ∨ g.visible a b = 3 := by
  obtain ⟨ha, hb', has, hbs⟩ := isValidPoint_toNat hv
  rw [ha, hb']
  exact hall a.toNat has b.toNat hbs

theorem allHidden_vis013 {g : Game} (hall : AllHidden g) : Vis013 g := by
  intro a b hv
  rcases allHidden_int hall hv with h | h
  · exact Or.inl h
  · exact Or.inr (Or.inr h)

theorem hiddenCount_le (g : Game) : hiddenCount g ≤ g.size * g.size := by
  calc hiddenCount g ≤ (cellsList g.size).length := List.countP_le_length _
    _ = g.size * g.size := cellsList_length g.size

theorem makeVisible_complete {g : Game} {x0 y0 : Int} (hall : AllHidden g)
    (hv : isValidPoint g.size x0 y0 = true) (hb : g.board x0 y0 = 0) :
    ∀ a b : Int, Reach g.size g.board x0 y0 a b →
      (makeVisible (g.size * g.size + 3) g x0 y0 0).visible a b = 1 := by
  intro a b hreach
  induction hreach with
  | refl =>
    rw [show g.size * g.size + 3 = (g.size * g.size + 2) + 1 by omega]
    exact makeVisible_flip hv (allHidden_int hall hv)
  | step d hr hvalid hbz hd hdval ihr =>
    refine makeVisible_spread (g.size * g.size + 3) g x0 y0 0 _ _
      (allHidden_vis013 hall) ?_ hvalid hbz ?_ ihr d hd hdval
    · have := hiddenCount_le g
      norm_num
      omega
    · rcases allHidden_int hall hvalid with h | h <;> omega

theorem flood_closure_core {g : Game} {x0 y0 : Int} (hall : AllHidden g)
    (hv : isValidPoint g.size x0 y0 = true) (hb : g.board x0 y0 = 0) :
    ∀ a b : Int, isValidPoint g.size a b = true →
      ((makeVisible (g.size * g.size + 3) g x0 y0 0).visible a b = 1 ↔
        Reach g.size g.board x0 y0 a b) ∧
      (¬ Reach g.size g.board x0 y0 a b →
        (makeVisible (g.size * g.size + 3) g x0 y0 0).visible a b = g.visible a b) := by
  have hsound := makeVisible_sound g.size g.board (Reach g.size g.board x0 y0)
    (fun a b hA hval hbz d hd hdval => Reach.step d hA hval hbz hd hdval)
    (g.size * g.size + 3) g x0 y0 0 rfl rfl (fun _ => Reach.refl)
    (fun _ => by rcases allHidden_int hall hv with h | h <;> omega)
  intro a b hvab
  have hchange : (makeVisible (g.size * g.size + 3) g x0 y0 0).visible a b ≠ g.visible a b →
      Reach g.size g.board x0 y0 a b := hsound a b
  constructor
  · constructor
    · intro h1
      by_cases hc : (makeVisible (g.size * g.size + 3) g x0 y0 0).visible a b = g.visible a b
      · exfalso
        rw [h1] at hc
        rcases allHidden_int hall hvab with h | h <;> rw [← hc] at h <;> omega
      · exact hchange hc
    · intro hr
      exact makeVisible_complete hall hv hb a b hr
  · intro hnr
    by_cases hc : (makeVisible (g.size * g.size + 3) g x0 y0 0).visible a b = g.visible a b
    · exact hc
    · exact absurd (hchange hc) hnr

/-! ### Characterizing `_check_game_status` -/

theorem checkCells_won_iff (g : Game) : ∀ (L : List (Nat × Nat)) (pr : Bool),
    checkCells g L pr = Status.won ↔
      (pr = false ∧ ∀ c ∈ L,
        (g.board (c.1 : Int) (c.2 : Int) = -1 → g.visible (c.1 : Int) (c.2 : Int) ≠ 1) ∧
        (g.board (c.1 : Int) (c.2 : Int) ≠ -1 → g.visible (c.1 : Int) (c.2 : Int) = 1)) := by
  intro L
  induction L with
  | nil =>
    intro pr
    rw [checkCells]
    cases pr <;> simp
  | cons c L ihL =>
    intro pr
    rw [checkCells]
    by_cases h1 : g.visible (c.1 : Int) (c.2 : Int) = 1 ∧ g.board (c.1 : Int) (c.2 : Int) = -1
    · rw [if_pos h1]
      constructor
      · intro h; cases h
      · intro ⟨_, hall⟩
        exact absurd h1.1 ((hall c (by simp)).1 h1.2)
    · rw [if_neg h1]
      by_cases h2 : g.visible (c.1 : Int) (c.2 : Int) ≠ 1 ∧ g.board (c.1 : Int) (c.2 : Int) ≠ -1
      · rw [if_pos h2, ihL]
        constructor
        · intro ⟨hpr, _⟩; cases hpr
        · intro ⟨_, hall⟩
          exact absurd ((hall c (by simp)).2 h2.2) h2.1
      · rw [if_neg h2, ihL]
        constructor
        · intro ⟨hpr, hall⟩
          refine ⟨hpr, fun e he => ?_⟩
          rcases List.mem_cons.mp he with rfl | heL
          · constructor
            · intro hm hv1; exact h1 ⟨hv1, hm⟩
            · intro hm; by_contra hv1; exact h2 ⟨hv1, hm⟩
          · exact hall e heL
        · intro ⟨hpr, hall⟩
          exact ⟨hpr, fun e he => hall e (by simp [he])⟩

theorem checkGameStatus_won_iff (g : Game) :
    checkGameStatus g = Status.won ↔
      ∀ i j : Nat, i < g.size → j < g.size →
        (g.board (i : Int) (j : Int) = -1 → g.visible (i : Int) (j : Int) ≠ 1) ∧
        (g.board (i : Int) (j : Int) ≠ -1 → g.visible (i : Int) (j : Int) = 1) := by
  unfold checkGameStatus
  rw [checkCells_won_iff]
  constructor
  · intro ⟨_, hall⟩ i j hi hj
    exact hall (i, j) (mem_cellsList.mpr ⟨hi, hj⟩)
  · intro hall
    refine ⟨rfl, fun c hc => ?_⟩
    obtain ⟨h1, h2⟩ := mem_cellsList.mp hc
    exact hall c.1 c.2 h1 h2

/-! ### numpy index normalization and `mark_square` -/

theorem npIdx_norm {size : Nat} {x : Int} (h1 : -(size : Int) ≤ x) (h2 : x < (size : Int)) :
    npIdx size x = some (normIdx size x) := by
  unfold normIdx
  by_cases h0 : 0 ≤ x
  · rw [if_pos h0]; exact npIdx_of_nonneg h0 h2
  · rw [if_neg h0]; exact npIdx_of_neg h1 (by omega)

theorem normIdx_bounds {size : Nat} {x : Int} (h1 : -(size : Int) ≤ x) (h2 : x < (size : Int)) :
    0 ≤ normIdx size x ∧ normIdx size x < (size : Int) := by
  unfold normIdx
  split <;> omega

theorem mark_square_alias (g : Game) (x y : Int)
    (hx1 : -(g.size : Int) ≤ x) (hx2 : x < (g.size : Int))
    (hy1 : -(g.size : Int) ≤ y) (hy2 : y < (g.size : Int)) :
    mark_square g x y = mark_square g (normIdx g.size x) (normIdx g.size y) := by
  unfold mark_square
  rw [npIdx_norm hx1 hx2, npIdx_norm hy1 hy2,
    npIdx_of_nonneg (normIdx_bounds hx1 hx2).1 (normIdx_bounds hx1 hx2).2,
    npIdx_of_nonneg (normIdx_bounds hy1 hy2).1 (normIdx_bounds hy1 hy2).2]

theorem mark_square_none (g : Game) (x y : Int)
    (h : x < -(g.size : Int) ∨ (g.size : Int) ≤ x ∨ y < -(g.size : Int) ∨ (g.size : Int) ≤ y) :
    mark_square g x y = none := by
  unfold mark_square
  rcases h with h | h | h | h
  · rw [npIdx_none (Or.inl h)]
  · rw [npIdx_none (Or.inr h)]
  · rw [npIdx_none (Or.inl h)]
    cases npIdx g.size x <;> rfl
  · rw [npIdx_none (Or.inr h)]
    cases npIdx g.size x <;> rfl

theorem uncover_square_none (g : Game) (mines : List Nat) (x y : Int)
    (h : x < -(g.size : Int) ∨ (g.size : Int) ≤ x ∨ y < -(g.size : Int) ∨ (g.size : Int) ≤ y) :
    uncover_square g mines x y = none := by
  unfold uncover_square
  cases hfm : g.firstMove
  all_goals
    first
      | (simp only [Bool.false_eq_true, if_false]
         rcases h with h | h | h | h
         · rw [npIdx_none (Or.inl h)]
         · rw [npIdx_none (Or.inr h)]
         · rw [npIdx_none (Or.inl h)]
           cases npIdx g.size x <;> rfl
         · rw [npIdx_none (Or.inr h)]
           cases npIdx g.size x <;> rfl)
      | (rw [if_pos (show (true : Bool) = true from rfl)]
         dsimp only
         rw [show (generate_board g mines).size = g.size from rfl]
         rcases h with h | h | h | h
         · rw [npIdx_none (Or.inl h)]
         · rw [npIdx_none (Or.inr h)]
         · rw [npIdx_none (Or.inl h)]
           cases npIdx g.size x <;> rfl
         · rw [npIdx_none (Or.inr h)]
           cases npIdx g.size x <;> rfl)

/-! ### The stored status is never consulted by `uncover_square` / `mark_square` -/

theorem uncover_firstMove (sz mc : Nat) (pmc ind : Int) (st : Status)
    (bd : Int → Int → Int) (vis : Int → Int → Nat) (mines : List Nat) (x y : Int) :
    uncover_square (Game.mk sz mc pmc ind true st bd vis) mines x y =
      uncover_square (Game.mk sz mc pmc ind false st (generateBoardFrom sz mines bd) vis)
        mines x y := rfl

theorem uncover_status_core (sz mc : Nat) (pmc ind : Int) (st1 st2 : Status)
    (bd : Int → Int → Int) (vis : Int → Int → Nat) (mines : List Nat) (x y : Int) :
    ((uncover_square (Game.mk sz mc pmc ind false st1 bd vis) mines x y).map
        fun p => eraseStatus p.1) =
      ((uncover_square (Game.mk sz mc pmc ind false st2 bd vis) mines x y).map
        fun p => eraseStatus p.1) := by
  unfold uncover_square
  simp only [Bool.false_eq_true, if_false]
  cases hx : npIdx sz x with
  | none => rfl
  | some a =>
    cases hy : npIdx sz y with
    | none => rfl
    | some b =>
      dsimp only
      by_cases hflag : 2 ≤ vis a b ∧ vis a b < 3
      · rw [if_pos hflag, if_pos hflag]; rfl
      · rw [if_neg hflag, if_neg hflag]
        by_cases hmine : bd a b = -1
        · rw [if_pos hmine, if_pos hmine]
        · rw [if_neg hmine, if_neg hmine]
          have hA := makeVisible_mvStep (sz * sz + 3)
            (Game.mk sz mc pmc ind false st1 bd vis) x y 0
          have hB := makeVisible_mvStep (sz * sz + 3)
            (Game.mk sz mc pmc ind false st2 bd vis) x y 0
          have hvis := makeVisible_congr (sz * sz + 3)
            (Game.mk sz mc pmc ind false st1 bd vis)
            (Game.mk sz mc pmc ind false st2 bd vis) x y 0 rfl rfl rfl
          simp only [Option.map_some']
          refine congrArg some ?_
          unfold eraseStatus
          refine Game.ext ?_ ?_ ?_ ?_ ?_ ?_ ?_ ?_
          · exact hA.1.trans hB.1.symm
          · exact hA.2.2.2.1.trans hB.2.2.2.1.symm
          · exact hA.2.2.2.2.1.trans hB.2.2.2.2.1.symm
          · exact hA.2.2.2.2.2.2.1.trans hB.2.2.2.2.2.2.1.symm
          · exact hA.2.2.2.2.2.1.trans hB.2.2.2.2.2.1.symm
          · rfl
          · exact hA.2.1.trans hB.2.1.symm
          · exact hvis

theorem mark_square_status_set (g : Game) (st : Status) (x y : Int) :
    mark_square { g with status := st } x y =
      (mark_square g x y).map fun h => { h with status := st } := by
  obtain ⟨sz, mc, pmc, ind, fm, stat, bd, vis⟩ := g
  unfold mark_square
  dsimp only
  cases hx : npIdx sz x with
  | none => rfl
  | some a =>
    cases hy : npIdx sz y with
    | none => rfl
    | some b =>
      dsimp only
      by_cases h0 : vis a b = 0
      · rw [if_pos h0, if_pos h0]; rfl
      · rw [if_neg h0, if_neg h0]
        by_cases h2 : vis a b = 2
        · rw [if_pos h2, if_pos h2]; rfl
        · rw [if_neg h2, if_neg h2]
          by_cases h3 : vis a b = 3
          · rw [if_pos h3, if_pos h3]; rfl
          · rw [if_neg h3, if_neg h3]; rfl

theorem uncover_square_status_set (g : Game) (mines : List Nat) (st : Status) (x y : Int) :
    ((uncover_square { g with status := st } mines x y).map fun p => eraseStatus p.1) =
      ((uncover_square g mines x y).map fun p => eraseStatus p.1) := by
  obtain ⟨sz, mc, pmc, ind, fm, stat, bd, vis⟩ := g
  cases fm
  · exact uncover_status_core sz mc pmc ind st stat bd vis mines x y
  · rw [show ({ Game.mk sz mc pmc ind true stat bd vis with status := st } : Game) =
        Game.mk sz mc pmc ind true st bd vis from rfl]
    rw [uncover_firstMove, uncover_firstMove]
    exact uncover_status_core sz mc pmc ind st stat (generateBoardFrom sz mines bd) vis mines x y

/-! ### `Reach` contains no mines on a consistent board -/

theorem boardConsistent_int {g : Game} (hc : BoardConsistent g) {a b : Int}
    (hv : isValidPoint g.size a b = true) (hm : g.board a b ≠ -1) :
    g.board a b = (mineNeighborCountB g a b : Int) := by
  obtain ⟨ha, hb', has, hbs⟩ := isValidPoint_toNat hv
  rw [ha, hb'] at hm ⊢
  exact hc a.toNat has b.toNat hbs hm

theorem reach_nonmine {g : Game} (hc : BoardConsistent g) {x0 y0 : Int}
    (hb0 : g.board x0 y0 = 0) :
    ∀ a b : Int, Reach g.size g.board x0 y0 a b → g.board a b ≠ -1 := by
  intro a b hr
  induction hr with
  | refl => rw [hb0]; norm_num
  | @step x1 y1 d hr hvalid hbz hd hdval ihr =>
    intro hmine
    have hcons := boardConsistent_int hc hvalid (by rw [hbz]; norm_num)
    rw [hbz] at hcons
    have hzero : mineNeighborCountB g x1 y1 = 0 := by exact_mod_cast hcons.symm
    unfold mineNeighborCountB at hzero
    have hnot := List.countP_eq_zero.mp hzero d hd
    apply hnot
    simp only [Bool.and_eq_true, beq_iff_eq, decide_eq_true_eq]
    exact ⟨hdval, by exact_mod_cast hmine⟩

/-! ### `_update_board` and its folds (board generation) -/

theorem updateBoard_other {size : Nat} {b : Int → Int → Int} {u v x y : Int}
    (h : ¬(x = u ∧ y = v)) : updateBoard size b u v x y = b x y := by
  unfold updateBoard
  split
  · dsimp only
    rw [if_neg h]
  · rfl

theorem updateBoard_self {size : Nat} {b : Int → Int → Int} {x y : Int} :
    updateBoard size b x y x y =
      if isValidPoint size x y = true ∧ b x y ≠ -1 then b x y + 1 else b x y := by
  unfold updateBoard
  by_cases h : isValidPoint size x y = true ∧ b x y ≠ -1
  · rw [if_pos h, if_pos h]
    rw [if_pos ⟨rfl, rfl⟩]
  · rw [if_neg h, if_neg h]

theorem updateBoard_nonneg {size : Nat} {b : Int → Int → Int} {u v x y : Int}
    (h : 0 ≤ b x y) : 0 ≤ updateBoard size b u v x y := by
  by_cases heq : x = u ∧ y = v
  · obtain ⟨rfl, rfl⟩ := heq
    rw [updateBoard_self]
    split <;> omega
  · rw [updateBoard_other heq]
    exact h

theorem fold_updateBoard_no_match (size : Nat) (i j : Int) :
    ∀ (L : List (Int × Int)) (b : Int → Int → Int) (x y : Int),
      (∀ d ∈ L, ¬(x = i + d.1 ∧ y = j + d.2)) →
      (L.foldl (fun bb d => updateBoard size bb (i + d.1) (j + d.2)) b) x y = b x y := by
  intro L
  induction L with
  | nil => intro b x y _; rfl
  | cons e L ihL =>
    intro b x y hno
    simp only [List.foldl_cons]
    rw [ihL _ x y (fun d hd => hno d (by simp [hd]))]
    exact updateBoard_other (hno e (by simp))

theorem fold_updateBoard_match (size : Nat) (i j : Int) :
    ∀ (L : List (Int × Int)) (b : Int → Int → Int) (x y : Int) (d : Int × Int),
      L.Nodup → d ∈ L → x = i + d.1 → y = j + d.2 →
      (∀ e ∈ L, e ≠ d → ¬(x = i + e.1 ∧ y = j + e.2)) →
      (L.foldl (fun dd bb => updateBoard size dd (i + bb.1) (j + bb.2)) b) x y =
        if isValidPoint size x y = true ∧ b x y ≠ -1 then b x y + 1 else b x y := by
  intro L
  induction L with
  | nil => intro b x y d _ hd; simp at hd
  | cons e L ihL =>
    intro b x y d hnd hd hx hy huniq
    simp only [List.foldl_cons]
    by_cases hed : e = d
    · subst hed
      rw [fold_updateBoard_no_match size i j L _ x y ?_]
      · subst hx; subst hy
        exact updateBoard_self
      · intro e' he' hmatch
        have hne : e' ≠ e := fun h => (List.nodup_cons.mp hnd).1 (h ▸ he')
        exact huniq e' (by simp [he']) hne hmatch
    · have hbe : updateBoard size b (i + e.1) (j + e.2) x y = b x y :=
        updateBoard_other (huniq e (by simp) hed)
      rw [ihL _ x y d (List.nodup_cons.mp hnd).2 ?_ hx hy ?_, hbe]
      · rcases List.mem_cons.mp hd with h | h
        · exact absurd h.symm hed
        · exact h
      · intro e' he' hne
        exact huniq e' (by simp [he']) hne

theorem placeMine_self (size : Nat) (m : Nat) (b : Int → Int → Int) :
    placeMine size b m ((m / size : Nat) : Int) ((m % size : Nat) : Int) = -1 := by
  unfold placeMine
  rw [fold_updateBoard_no_match size _ _ OFFSETS _ _ _ ?_]
  · rw [if_pos ⟨rfl, rfl⟩]
  · intro d hd hmatch
    have hnz := offsets_ne_zero d hd
    obtain ⟨h1, h2⟩ := hmatch
    exact hnz ⟨by omega, by omega⟩

theorem placeMine_nbr (size : Nat) (m : Nat) (b : Int → Int → Int) (x y : Int)
    (hne : ¬(x = ((m / size : Nat) : Int) ∧ y = ((m % size : Nat) : Int)))
    (d : Int × Int) (hd : d ∈ OFFSETS)
    (hx : x = ((m / size : Nat) : Int) + d.1) (hy : y = ((m % size : Nat) : Int) + d.2) :
    placeMine size b m x y =
      if isValidPoint size x y = true ∧ b x y ≠ -1 then b x y + 1 else b x y := by
  unfold placeMine
  rw [fold_updateBoard_match size _ _ OFFSETS _ x y d offsets_nodup hd hx hy ?_]
  · simp only [if_neg hne]
  · intro e he hne' hmatch
    obtain ⟨h1, h2⟩ := hmatch
    have he1 : e.1 = d.1 := by omega
    have he2 : e.2 = d.2 := by omega
    exact hne' (Prod.ext he1 he2)

theorem placeMine_far (size : Nat) (m : Nat) (b : Int → Int → Int) (x y : Int)
    (hne : ¬(x = ((m / size : Nat) : Int) ∧ y = ((m % size : Nat) : Int)))
    (hfar : ∀ d ∈ OFFSETS, ¬(x = ((m / size : Nat) : Int) + d.1 ∧
      y = ((m % size : Nat) : Int) + d.2)) :
    placeMine size b m x y = b x y := by
  unfold placeMine
  rw [fold_updateBoard_no_match size _ _ OFFSETS _ x y hfar]
  rw [if_neg hne]

/-! ### Neighbor-mine counts under adding one mine -/

theorem flat_eq_cell {size : Nat} {u v : Int} (hval : isValidPoint size u v = true)
    {m : Nat} (h : u.toNat * size + v.toNat = m) :
    u = ((m / size : Nat) : Int) ∧ v = ((m % size : Nat) : Int) := by
  obtain ⟨hu, hv, hus, hvs⟩ := isValidPoint_toNat hval
  have h1 : (u.toNat * size + v.toNat) / size = u.toNat := flat_div hvs
  have h2 : (u.toNat * size + v.toNat) % size = v.toNat := flat_mod hvs
  rw [h] at h1 h2
  constructor
  · rw [hu, h1]
  · rw [hv, h2]

theorem mineNeighborCount_append_far (size : Nat) (pre : List Nat) (m : Nat) (x y : Int)
    (hfar : ∀ e ∈ OFFSETS, ¬(x = ((m / size : Nat) : Int) + e.1 ∧
      y = ((m % size : Nat) : Int) + e.2)) :
    mineNeighborCount size (pre ++ [m]) x y = mineNeighborCount size pre x y := by
  unfold mineNeighborCount
  refine List.countP_congr ?_
  intro e he
  by_cases hv : isValidPoint size (x + e.1) (y + e.2) = true
  · have hnotm : ¬((x + e.1).toNat * size + (y + e.2).toNat ∈ [m]) := by
      intro hmem
      rw [List.mem_singleton] at hmem
      obtain ⟨hu, hv2⟩ := flat_eq_cell hv hmem
      exact hfar (-e.1, -e.2) (offsets_neg_mem e he) ⟨by omega, by omega⟩
    simp only [hv, Bool.true_and, decide_eq_true_eq]
    rw [List.mem_append]
    exact or_iff_left hnotm
  · rw [Bool.not_eq_true] at hv
    simp [hv]

theorem mineNeighborCount_append_nbr (size : Nat) (pre : List Nat) (m : Nat)
    (hm : m < size * size) (hmpre : m ∉ pre) (x y : Int)
    (d : Int × Int) (hd : d ∈ OFFSETS)
    (hx : x = ((m / size : Nat) : Int) + d.1) (hy : y = ((m % size : Nat) : Int) + d.2) :
    mineNeighborCount size (pre ++ [m]) x y = mineNeighborCount size pre x y + 1 := by
  have hsz : 0 < size := by
    rcases Nat.eq_zero_or_pos size with h | h
    · subst h; omega
    · exact h
  have hi : m / size < size := (Nat.div_lt_iff_lt_mul hsz).mpr hm
  have hj : m % size < size := Nat.mod_lt _ hsz
  have hflatm : (m / size) * size + m % size = m := by
    have h := Nat.div_add_mod m size
    rw [Nat.mul_comm] at h
    exact h
  have he0 : ((-d.1, -d.2) : Int × Int) ∈ OFFSETS := offsets_neg_mem d hd
  obtain ⟨l1, l2, hsplit⟩ := List.append_of_mem he0
  have hnd : OFFSETS.Nodup := offsets_nodup
  rw [hsplit] at hnd
  have hnotl1 : ((-d.1, -d.2) : Int × Int) ∉ l1 := by
    intro hmem
    exact (List.nodup_append.mp hnd).2.2 hmem (by simp)
  have hnotl2 : ((-d.1, -d.2) : Int × Int) ∉ l2 :=
    (List.nodup_cons.mp (List.nodup_append.mp hnd).2.1).1
  have hpoint : ∀ e : Int × Int, e ≠ (-d.1, -d.2) →
      ((isValidPoint size (x + e.1) (y + e.2) &&
        decide ((x + e.1).toNat * size + (y + e.2).toNat ∈ pre ++ [m])) = true ↔
      (isValidPoint size (x + e.1) (y + e.2) &&
        decide ((x + e.1).toNat * size + (y + e.2).toNat ∈ pre)) = true) := by
    intro e hne
    by_cases hv : isValidPoint size (x + e.1) (y + e.2) = true
    · have hnotm : ¬((x + e.1).toNat * size + (y + e.2).toNat ∈ [m]) := by
        intro hmem
        rw [List.mem_singleton] at hmem
        obtain ⟨hu, hv2⟩ := flat_eq_cell hv hmem
        exact hne (Prod.ext (by omega) (by omega))
      simp only [hv, Bool.true_and, decide_eq_true_eq]
      rw [List.mem_append]
      exact or_iff_left hnotm
    · rw [Bool.not_eq_true] at hv
      simp [hv]
  have hx0 : x + (-d.1) = ((m / size : Nat) : Int) := by omega
  have hy0 : y + (-d.2) = ((m % size : Nat) : Int) := by omega
  have hval0 : isValidPoint size (x + (-d.1)) (y + (-d.2)) = true := by
    rw [hx0, hy0]
    exact isValidPoint_natCast.mpr ⟨hi, hj⟩
  have hflat0 : (x + (-d.1)).toNat * size + (y + (-d.2)).toNat = m := by
    rw [hx0, hy0]
    simp only [Int.toNat_natCast]
    exact hflatm
  have hpn : (isValidPoint size (x + (-d.1, -d.2).1) (y + (-d.1, -d.2).2) &&
      decide ((x + (-d.1, -d.2).1).toNat * size + (y + (-d.1, -d.2).2).toNat ∈ pre ++ [m])) =
        true := by
    dsimp only
    rw [hval0]
    simp only [Bool.true_and, hflat0]
    simp
  have hpo : (isValidPoint size (x + (-d.1, -d.2).1) (y + (-d.1, -d.2).2) &&
      decide ((x + (-d.1, -d.2).1).toNat * size + (y + (-d.1, -d.2).2).toNat ∈ pre)) =
        false := by
    dsimp only
    rw [hval0]
    simp only [Bool.true_and, hflat0]
    simp [hmpre]
  unfold mineNeighborCount
  rw [hsplit, List.countP_append, List.countP_append, List.countP_cons, List.countP_cons]
  have hl1 : ∀ e ∈ l1,
      ((isValidPoint size (x + e.1) (y + e.2) &&
        decide ((x + e.1).toNat * size + (y + e.2).toNat ∈ pre ++ [m])) = true ↔
      (isValidPoint size (x + e.1) (y + e.2) &&
        decide ((x + e.1).toNat * size + (y + e.2).toNat ∈ pre)) = true) :=
    fun e he => hpoint e (fun h => hnotl1 (h ▸ he))
  have hl2 : ∀ e ∈ l2,
      ((isValidPoint size (x + e.1) (y + e.2) &&
        decide ((x + e.1).toNat * size + (y + e.2).toNat ∈ pre ++ [m])) = true ↔
      (isValidPoint size (x + e.1) (y + e.2) &&
        decide ((x + e.1).toNat * size + (y + e.2).toNat ∈ pre)) = true) :=
    fun e he => hpoint e (fun h => hnotl2 (h ▸ he))
  rw [List.countP_congr hl1, List.countP_congr hl2, hpn, hpo]
  norm_num
  omega

/-! ### The board built by `_generate_board` -/

theorem placeMine_invariant (size : Nat) (pre : List Nat) (m : Nat)
    (hm : m < size * size) (hmpre : m ∉ pre) (b : Int → Int → Int)
    (hinv : ∀ x y : Int, isValidPoint size x y = true →
      b x y = if x.toNat * size + y.toNat ∈ pre then -1
              else (mineNeighborCount size pre x y : Int)) :
    ∀ x y : Int, isValidPoint size x y = true →
      placeMine size b m x y =
        if x.toNat * size + y.toNat ∈ pre ++ [m] then -1
        else (mineNeighborCount size (pre ++ [m]) x y : Int) := by
  have hsz : 0 < size := by
    rcases Nat.eq_zero_or_pos size with h | h
    · subst h; omega
    · exact h
  have hflatm : (m / size) * size + m % size = m := by
    have h := Nat.div_add_mod m size
    rw [Nat.mul_comm] at h
    exact h
  intro x y hval
  by_cases hcell : x = ((m / size : Nat) : Int) ∧ y = ((m % size : Nat) : Int)
  · obtain ⟨rfl, rfl⟩ := hcell
    rw [placeMine_self]
    rw [if_pos ?_]
    simp only [Int.toNat_natCast]
    rw [hflatm]
    exact List.mem_append_right _ (by simp)
  · have hflatne : x.toNat * size + y.toNat ≠ m := fun h => hcell (flat_eq_cell hval h)
    have hmem : (x.toNat * size + y.toNat ∈ pre ++ [m]) ↔ (x.toNat * size + y.toNat ∈ pre) := by
      rw [List.mem_append]
      exact or_iff_left (by simp [hflatne])
    by_cases hnbr : ∃ d ∈ OFFSETS,
        x = ((m / size : Nat) : Int) + d.1 ∧ y = ((m % size : Nat) : Int) + d.2
    · obtain ⟨d, hd, hx, hy⟩ := hnbr
      rw [placeMine_nbr size m b x y hcell d hd hx hy, hinv x y hval]
      by_cases hpre : x.toNat * size + y.toNat ∈ pre
      · rw [if_pos hpre, if_pos (hmem.mpr hpre)]
        rw [if_neg (by simp)]
      · rw [if_neg hpre, if_neg (fun h => hpre (hmem.mp h))]
        rw [if_pos ⟨hval, by omega⟩]
        rw [mineNeighborCount_append_nbr size pre m hm hmpre x y d hd hx hy]
        push_cast
        ring
    · push_neg at hnbr
      rw [placeMine_far size m b x y hcell (fun d hd h => hnbr d hd h.1 h.2), hinv x y hval]
      by_cases hpre : x.toNat * size + y.toNat ∈ pre
      · rw [if_pos hpre, if_pos (hmem.mpr hpre)]
      · rw [if_neg hpre, if_neg (fun h => hpre (hmem.mp h))]
        rw [mineNeighborCount_append_far size pre m x y (fun e he h => hnbr e he h.1 h.2)]

theorem generateBoardFrom_invariant (size : Nat) :
    ∀ (mines pre : List Nat) (b : Int → Int → Int),
      (pre ++ mines).Nodup →
      (∀ m ∈ pre ++ mines, m < size * size) →
      (∀ x y : Int, isValidPoint size x y = true →
        b x y = if x.toNat * size + y.toNat ∈ pre then -1
                else (mineNeighborCount size pre x y : Int)) →
      ∀ x y : Int, isValidPoint size x y = true →
        generateBoardFrom size mines b x y =
          if x.toNat * size + y.toNat ∈ pre ++ mines then -1
          else (mineNeighborCount size (pre ++ mines) x y : Int) := by
  intro mines
  induction mines with
  | nil =>
    intro pre b _ _ hinv x y hval
    simpa using hinv x y hval
  | cons m mines ihm =>
    intro pre b hnd hrange hinv x y hval
    have hassoc : pre ++ m :: mines = (pre ++ [m]) ++ mines := by simp
    have hm : m < size * size := hrange m (by simp)
    have hmpre : m ∉ pre := by
      rw [hassoc] at hnd
      intro hmem
      have hnd2 : (pre ++ [m]).Nodup := (List.nodup_append.mp hnd).1
      exact (List.nodup_append.mp hnd2).2.2 hmem (by simp)
    rw [show generateBoardFrom size (m :: mines) b =
      generateBoardFrom size mines (placeMine size b m) from rfl]
    rw [hassoc]
    refine ihm (pre ++ [m]) (placeMine size b m) ?_ ?_ ?_ x y hval
    · rw [← hassoc]; exact hnd
    · intro m' hm'; refine hrange m' ?_; rw [hassoc]; exact hm'
    · exact placeMine_invariant size pre m hm hmpre b hinv

theorem generateBoardFrom_spec (size : Nat) (mines : List Nat)
    (hnd : mines.Nodup) (hrange : ∀ m ∈ mines, m < size * size) :
    ∀ x y : Int, isValidPoint size x y = true →
      generateBoardFrom size mines (fun _ _ => 0) x y =
        if x.toNat * size + y.toNat ∈ mines then -1
        else (mineNeighborCount size mines x y : Int) := by
  have h := generateBoardFrom_invariant size mines [] (fun _ _ => 0)
    (by simpa using hnd) (by simpa using hrange) ?_
  · simpa using h
  · intro x y _
    simp [mineNeighborCount]

theorem generateBoardFrom_mine_count (size : Nat) (mines : List Nat)
    (hnd : mines.Nodup) (hrange : ∀ m ∈ mines, m < size * size) :
    (cellsList size).countP (fun p =>
      generateBoardFrom size mines (fun _ _ => 0) (p.1 : Int) (p.2 : Int) == -1) =
      mines.length := by
  have hpt : ∀ p ∈ cellsList size,
      ((generateBoardFrom size mines (fun _ _ => 0) (p.1 : Int) (p.2 : Int) == -1) = true ↔
        decide (p.1 * size + p.2 ∈ mines) = true) := by
    intro p hp
    obtain ⟨h1, h2⟩ := mem_cellsList.mp hp
    have hval : isValidPoint size (p.1 : Int) (p.2 : Int) = true :=
      isValidPoint_natCast.mpr ⟨h1, h2⟩
    rw [generateBoardFrom_spec size mines hnd hrange _ _ hval]
    simp only [Int.toNat_natCast]
    by_cases hmem : p.1 * size + p.2 ∈ mines
    · simp [hmem]
    · rw [if_neg hmem]
      simp only [beq_iff_eq, decide_eq_true_eq]
      constructor
      · intro h; exact absurd h (by omega)
      · intro h; exact absurd h hmem
  rw [List.countP_congr hpt]
  unfold cellsList
  rw [List.countP_map]
  have hpt2 : ∀ k ∈ List.range (size * size),
      (((fun p : Nat × Nat => decide (p.1 * size + p.2 ∈ mines)) ∘
        fun k => (k / size, k % size)) k = true ↔ decide (k ∈ mines) = true) := by
    intro k hk
    simp only [Function.comp_apply, decide_eq_true_eq]
    have hk' : k / size * size + k % size = k := by
      have h := Nat.div_add_mod k size
      rw [Nat.mul_comm] at h
      exact h
    rw [hk']
  rw [List.countP_congr hpt2]
  rw [List.countP_eq_length_filter]
  have hndf : ((List.range (size * size)).filter (fun k => decide (k ∈ mines))).Nodup :=
    (List.nodup_range _).filter _
  have hr : (List.range (size * size)).toFinset = Finset.range (size * size) := by
    ext a
    simp
  rw [← List.toFinset_card_of_nodup hndf, List.toFinset_filter, hr]
  have hset : ((Finset.range (size * size)).filter fun k => decide (k ∈ mines) = true) =
      mines.toFinset := by
    ext k
    simp only [Finset.mem_filter, Finset.mem_range, decide_eq_true_eq, List.mem_toFinset]
    constructor
    · intro h; exact h.2
    · intro h; exact ⟨hrange k h, h⟩
  rw [hset, List.toFinset_card_of_nodup hnd]

/-! ### First-move safety of the generated board -/

theorem fold_updateBoard_nonneg (size : Nat) (i j : Int) :
    ∀ (L : List (Int × Int)) (b : Int → Int → Int) (x y : Int), 0 ≤ b x y →
      0 ≤ (L.foldl (fun bb d => updateBoard size bb (i + d.1) (j + d.2)) b) x y := by
  intro L
  induction L with
  | nil => intro b x y hb; exact hb
  | cons e L ihL =>
    intro b x y hb
    simp only [List.foldl_cons]
    exact ihL _ x y (updateBoard_nonneg hb)

theorem generateBoardFrom_nonneg (size : Nat) :
    ∀ (mines : List Nat) (b : Int → Int → Int) (x y : Int),
      (∀ m ∈ mines, m ≠ x.toNat * size + y.toNat) → 0 ≤ b x y →
      0 ≤ generateBoardFrom size mines b x y := by
  intro mines
  induction mines with
  | nil => intro b x y _ hb; exact hb
  | cons m mines ihm =>
    intro b x y hne hb
    rw [show generateBoardFrom size (m :: mines) b =
      generateBoardFrom size mines (placeMine size b m) from rfl]
    refine ihm _ x y (fun m' hm' => hne m' (by simp [hm'])) ?_
    have hm := hne m (by simp)
    have hcell : ¬(x = ((m / size : Nat) : Int) ∧ y = ((m % size : Nat) : Int)) := by
      rintro ⟨h1, h2⟩
      apply hm
      have hxm : x.toNat = m / size := by rw [h1]; exact Int.toNat_natCast _
      have hym : y.toNat = m % size := by rw [h2]; exact Int.toNat_natCast _
      rw [hxm, hym]
      have h := Nat.div_add_mod m size
      rw [Nat.mul_comm] at h
      exact h.symm
    unfold placeMine
    refine fold_updateBoard_nonneg size _ _ OFFSETS _ x y ?_
    dsimp only
    rw [if_neg hcell]
    exact hb

/-! ### A full-board sample leaves no cell for the first move -/

theorem validSample_full {n : Nat} {sample : List Nat} (h : validSample n n sample) :
    ∀ v : Nat, v < n → v ∈ sample := by
  obtain ⟨hnd, hlen, hrange⟩ := h
  intro v hv
  have hsub : sample.toFinset ⊆ Finset.range n := by
    intro a ha
    rw [List.mem_toFinset] at ha
    exact Finset.mem_range.mpr (hrange a ha)
  have hcard : (Finset.range n).card ≤ sample.toFinset.card := by
    rw [Finset.card_range, List.toFinset_card_of_nodup hnd, hlen]
  have heq : sample.toFinset = Finset.range n := Finset.eq_of_subset_of_card_le hsub hcard
  rw [← List.mem_toFinset, heq]
  exact Finset.mem_range.mpr hv

/-! ## The claims -/

/-- C1, counterexample: the claim says a terminal game is frozen, but `gC1`
is a Lost game on which a further reveal of the hidden safe cell (0,1)
mutates visibility and returns InProgress, overwriting the terminal status. -/
theorem c1_terminal_not_frozen_cex :
    gC1.status = Status.lost ∧ gC1.visible 0 1 = 0 ∧
    uncoverStatus gC1 [] 0 1 = some Status.inProgress ∧
    uncoverVis gC1 [] 0 1 0 1 = some 1 := by decide

/-- C1 (amended): `uncover_square` and `mark_square` never consult the stored
status: with any stored status (terminal or not) they perform exactly the
same mutation; only the flagged-target reveal's return value echoes the
stored status.  In particular there is no terminal guard: calls after
Won/Lost behave exactly as calls in progress. -/
theorem c1_status_never_consulted (g : Game) (mines : List Nat) (x y : Int) (st : Status) :
    ((uncover_square { g with status := st } mines x y).map fun p => eraseStatus p.1) =
      ((uncover_square g mines x y).map fun p => eraseStatus p.1) ∧
    mark_square { g with status := st } x y =
      (mark_square g x y).map fun h => { h with status := st } :=
  ⟨uncover_square_status_set g mines st x y, mark_square_status_set g st x y⟩

/-- C7, counterexample: constructing a game with `mineCount = 100` on a
3-by-3 board succeeds and produces a live game object; nothing is rejected
at construction time. -/
theorem c7_no_validation_cex :
    (Minesweeper.init 3 100 0).size = 3 ∧ (Minesweeper.init 3 100 0).mineCount = 100 ∧
    (Minesweeper.init 3 100 0).status = Status.inProgress ∧
    (Minesweeper.init 3 100 0).firstMove = true ∧ ¬(100 < 3 * 3) := by decide

/-- C7 (amended): the constructor performs no validation and always yields a
game object with the given parameters; an invalid mine count can only
surface at the first reveal, and in particular when `mineCount = size*size`
no sampling outcome can ever satisfy the first-move-safety retry condition
(every full sample contains every cell), so `_generate_board` never
terminates. -/
theorem c7_construction_unvalidated :
    (∀ (size mcount : Nat) (indent : Int),
      (Minesweeper.init size mcount indent).size = size ∧
      (Minesweeper.init size mcount indent).mineCount = mcount ∧
      (Minesweeper.init size mcount indent).status = Status.inProgress ∧
      (Minesweeper.init size mcount indent).firstMove = true) ∧
    (∀ (s : Nat) (sample : List Nat) (x y : Int),
      validSample (s * s) (s * s) sample →
      0 ≤ x → x < (s : Int) → 0 ≤ y → y < (s : Int) →
      ∃ m ∈ sample, (m : Int) = x * (s : Int) + y) := by
  constructor
  · intro size mcount indent; exact ⟨rfl, rfl, rfl, rfl⟩
  · intro s sample x y hvs hx0 hxs hy0 hys
    have hx : x.toNat < s := by omega
    have hy : y.toNat < s := by omega
    have hflat : x.toNat * s + y.toNat < s * s := flat_lt hx hy
    have hmem := validSample_full hvs _ hflat
    refine ⟨x.toNat * s + y.toNat, hmem, ?_⟩
    push_cast
    rw [Int.toNat_of_nonneg hx0, Int.toNat_of_nonneg hy0]

/-- C7 witness: on a 1-by-1 board a full sample `[0]` always contains the
first-clicked cell, so the retry condition can never be met. -/
theorem c7_construction_unvalidated_witness :
    validSample (1 * 1) (1 * 1) [0] ∧ ∃ m ∈ ([0] : List Nat), (m : Int) = 0 * (1 : Int) + 0 :=
  ⟨by unfold validSample; decide,
    c7_construction_unvalidated.2 1 [0] 0 0 (by unfold validSample; decide)
      (by decide) (by decide) (by decide) (by decide)⟩

/-- C8, counterexample: revealing the question-marked safe cell (1,1) is not
a no-op: the cell becomes Revealed (only Flagged cells are protected by the
`2 <= visible < 3` test). -/
theorem c8_questioned_not_protected_cex :
    gC8.visible 1 1 = 3 ∧ uncoverVis gC8 [] 1 1 1 1 = some 1 ∧
    uncoverStatus gC8 [] 1 1 = some Status.inProgress := by decide

/-- C8 (amended): only a Flagged target (visibility code 2) makes reveal a
no-op that returns the stored status unchanged; a Questioned target
(code 3) is not protected: it is revealed if safe, and loses the game if it
is a mine. -/
theorem c8_flag_blocks_reveal (g : Game) (mines : List Nat) (x y : Int)
    (hfm : g.firstMove = false)
    (hx0 : 0 ≤ x) (hxs : x < (g.size : Int)) (hy0 : 0 ≤ y) (hys : y < (g.size : Int)) :
    (g.visible x y = 2 → uncover_square g mines x y = some (g, g.status)) ∧
    (g.visible x y = 3 → g.board x y ≠ -1 → uncoverVis g mines x y x y = some 1) ∧
    (g.visible x y = 3 → g.board x y = -1 →
      uncover_square g mines x y = some ({ g with status := Status.lost }, Status.lost)) := by
  refine ⟨fun hflag => uncover_eq_pass hfm hx0 hxs hy0 hys hflag, ?_, ?_⟩
  · intro h3 hnm
    unfold uncoverVis
    rw [uncover_eq_reveal hfm hx0 hxs hy0 hys (by omega) hnm]
    simp only [Option.map_some']
    refine congrArg some ?_
    show (makeVisible (g.size * g.size + 3) g x y 0).visible x y = 1
    rw [show g.size * g.size + 3 = (g.size * g.size + 2) + 1 from by omega]
    exact makeVisible_flip (isValidPoint_iff.mpr ⟨hx0, hxs, hy0, hys⟩) (Or.inr h3)
  · intro h3 hm
    exact uncover_eq_mine hfm hx0 hxs hy0 hys (by omega) hm

/-- C8 witness: on `gC8`, the flag clause is vacuous and the questioned safe
cell (1,1) is revealed by the call. -/
theorem c8_flag_blocks_reveal_witness :
    gC8.firstMove = false ∧ gC8.visible 1 1 = 3 ∧ gC8.board 1 1 ≠ -1 ∧
    uncoverVis gC8 [] 1 1 1 1 = some 1 :=
  ⟨rfl, rfl, by decide,
    (c8_flag_blocks_reveal gC8 [] 1 1 rfl (by decide) (by decide) (by decide)
      (by decide)).2.1 rfl (by decide)⟩

/-- C9, counterexample: `mark_square gC9 (-1) 0` does not fail; numpy's
negative indexing silently aliases it to the cell (2,0), which gets
flagged. -/
theorem c9_negative_index_aliasing_cex :
    gC9.visible 2 0 = 0 ∧ markVisAt gC9 (-1) 0 2 0 = some 2 := by decide

/-- C9 (amended): coordinates outside `[-size, size)` raise `IndexError`
(the call fails, on both reveal and mark); but coordinates inside
`[-size, 0)` do not fail: numpy aliases them to `coordinate + size`, so mark
operates on the aliased cell and reveal branches on the aliased cell's
state (a reveal whose aliased cell is flagged passes and echoes the stored
status). -/
theorem c9_bounds_behavior (g : Game) (mines : List Nat) (x y : Int) :
    ((x < -(g.size : Int) ∨ (g.size : Int) ≤ x ∨ y < -(g.size : Int) ∨ (g.size : Int) ≤ y) →
      mark_square g x y = none ∧ uncover_square g mines x y = none) ∧
    (-(g.size : Int) ≤ x → x < (g.size : Int) → -(g.size : Int) ≤ y → y < (g.size : Int) →
      mark_square g x y = mark_square g (normIdx g.size x) (normIdx g.size y)) ∧
    (g.firstMove = false → -(g.size : Int) ≤ x → x < (g.size : Int) → -(g.size : Int) ≤ y →
      y < (g.size : Int) → g.visible (normIdx g.size x) (normIdx g.size y) = 2 →
      uncover_square g mines x y = some (g, g.status)) := by
  refine ⟨fun h => ⟨mark_square_none g x y h, uncover_square_none g mines x y h⟩,
    fun h1 h2 h3 h4 => mark_square_alias g x y h1 h2 h3 h4, ?_⟩
  intro hfm h1 h2 h3 h4 hflag
  unfold uncover_square
  rw [hfm]
  simp only [Bool.false_eq_true, if_false]
  rw [npIdx_norm h1 h2, npIdx_norm h3 h4]
  dsimp only
  rw [hflag]
  norm_num

/-- C9 witness: on the 3-by-3 `gC9`, the coordinate pair (-1, 0) is in the
aliasing range and marking it flags the aliased cell (2, 0), while (3, 0) is
out of range and fails. -/
theorem c9_bounds_behavior_witness :
    mark_square gC9 3 0 = none ∧
    mark_square gC9 (-1) 0 = mark_square gC9 (normIdx gC9.size (-1)) (normIdx gC9.size 0) :=
  ⟨((c9_bounds_behavior gC9 [] 3 0).1 (by decide)).1,
    (c9_bounds_behavior gC9 [] (-1) 0).2.1 (by decide) (by decide) (by decide) (by decide)⟩

set_option maxRecDepth 8000 in
/-- C2, counterexample: chord-revealing (0,1) on `gC2` (count 1 with one
flagged neighbor) reveals (2,0), which is not an immediate neighbor of
(0,1): a chord-triggered reveal of a zero-count neighbor cascades — the
source's `level == 1` one-level branch is unreachable dead code. -/
theorem c2_chord_cascades_cex :
    gC2.visible 0 1 = 1 ∧ gC2.board 0 1 = (countNeighboringFlags gC2 0 1 : Int) ∧
    gC2.visible 2 0 = 0 ∧
    (OFFSETS.all fun d => !(((0 : Int) + d.1 == 2) && ((1 : Int) + d.2 == 0))) = true ∧
    uncoverVis gC2 [] 0 1 2 0 = some 1 := by decide

/-- C2 (amended): a chord-reveal (reveal on a Revealed cell whose count
equals its number of Flagged neighbors) reveals every Hidden/Questioned
immediate neighbor and leaves Flagged neighbors flagged, but it is not
limited to one level: a chord-revealed neighbor with a zero count cascades
exactly like a normal zero reveal (see the counterexample; the `level == 1`
branch of `_make_visible` is unreachable). -/
theorem c2_chord_reveals_neighbors (g : Game) (mines : List Nat) (x y : Int)
    (hfm : g.firstMove = false)
    (hx0 : 0 ≤ x) (hxs : x < (g.size : Int)) (hy0 : 0 ≤ y) (hys : y < (g.size : Int))
    (hrev : g.visible x y = 1)
    (hchord : g.board x y = (countNeighboringFlags g x y : Int)) :
    ∀ d ∈ OFFSETS, isValidPoint g.size (x + d.1) (y + d.2) = true →
      ((g.visible (x + d.1) (y + d.2) = 0 ∨ g.visible (x + d.1) (y + d.2) = 3) →
        uncoverVis g mines x y (x + d.1) (y + d.2) = some 1) ∧
      (g.visible (x + d.1) (y + d.2) = 2 →
        uncoverVis g mines x y (x + d.1) (y + d.2) = some 2) := by
  intro d hd hdval
  have hval : isValidPoint g.size x y = true := isValidPoint_iff.mpr ⟨hx0, hxs, hy0, hys⟩
  have hkey : ∀ v : Nat,
      (makeVisible (g.size * g.size + 3) g x y 0).visible (x + d.1) (y + d.2) = v →
      uncoverVis g mines x y (x + d.1) (y + d.2) = some v := by
    intro v hv
    unfold uncoverVis
    rw [uncover_eq_reveal hfm hx0 hxs hy0 hys (by omega) (by omega)]
    simp only [Option.map_some']
    refine congrArg some ?_
    exact hv
  have hunfold : makeVisible (g.size * g.size + 3) g x y 0 =
      OFFSETS.foldl (fun gg e => makeVisible (g.size * g.size + 2) gg (x + e.1) (y + e.2) 1) g := by
    rw [show g.size * g.size + 3 = (g.size * g.size + 2) + 1 from by omega, makeVisible,
      if_pos hval, if_neg (by omega), if_pos ⟨rfl, hrev, hchord⟩]
  constructor
  · intro h03
    refine hkey 1 ?_
    rw [hunfold]
    rw [show g.size * g.size + 2 = (g.size * g.size + 1) + 1 from by omega]
    refine foldl_makeVisible_flip (g.size * g.size + 1) x y 1 OFFSETS g d hd hdval ?_
    rcases h03 with h | h
    · exact Or.inl h
    · exact Or.inr (Or.inr h)
  · intro hflag
    refine hkey 2 ?_
    rw [hunfold]
    exact mvStep_vis_keep
      (foldl_mvStep (fun g' e _ => makeVisible_mvStep _ _ _ _ _) g) hflag
      (by omega) (by omega)

/-- C2 witness: on `gC2`, chording (0,1) reveals its hidden neighbor
`(0+1, 1+0)` and keeps the flag on `(0+(-1)... the flagged neighbor (0,0)`:
here instantiated at the neighbor offset (1, 0). -/
theorem c2_chord_reveals_neighbors_witness :
    gC2.firstMove = false ∧ gC2.visible 0 1 = 1 ∧
    gC2.board 0 1 = (countNeighboringFlags gC2 0 1 : Int) ∧
    uncoverVis gC2 [] 0 1 ((0 : Int) + 1) ((1 : Int) + 0) = some 1 :=
  ⟨rfl, rfl, by decide,
    ((c2_chord_reveals_neighbors gC2 [] 0 1 rfl (by decide) (by decide) (by decide)
      (by decide) rfl (by decide)) ((1 : Int), (0 : Int)) (by decide) (by decide)).1
      (by decide)⟩

/-- C3, counterexample: on `gC3` (an all-zero board whose middle column is
entirely Flagged) the cell (2,0) lies in the flood-fill closure of (0,0)
(the whole board is one zero-count component), the claim's premises hold at
(0,0), and yet (2,0) stays hidden after `reveal (0,0)`: flags block the
cascade, so not all of the closure is revealed. -/
theorem c3_flood_blocked_by_flags_cex :
    gC3.firstMove = false ∧ gC3.visible 0 0 = 0 ∧ gC3.board 0 0 = 0 ∧
    Reach gC3.size gC3.board 0 0 2 0 ∧
    uncoverVis gC3 [] 0 0 2 0 = some 0 := by
  refine ⟨rfl, rfl, rfl, ?_, by decide⟩
  have h1 : Reach gC3.size gC3.board 0 0 (0 + 1) (0 + 0) :=
    Reach.step ((1 : Int), (0 : Int)) Reach.refl (by decide) (by decide) (by decide) (by decide)
  norm_num at h1
  have h2 : Reach gC3.size gC3.board 0 0 (1 + 1) (0 + 0) :=
    Reach.step ((1 : Int), (0 : Int)) h1 (by decide) (by decide) (by decide) (by decide)
  norm_num at h2
  exact h2

/-- C3 (amended): on a board where every cell is still Hidden or Questioned
(no flags, nothing revealed — the state in which a flood fill actually runs
unobstructed), revealing a zero-count cell reveals exactly the flood-fill
closure `Reach` (the connected zero-count component of the origin plus its
immediate boundary), and every cell outside the closure keeps its previous
visibility.  With flags or revealed cells present the cascade is blocked
(see the counterexample). -/
theorem c3_flood_fill_closure (g : Game) (mines : List Nat) (i j : Nat)
    (hfm : g.firstMove = false) (hall : AllHidden g)
    (hi : i < g.size) (hj : j < g.size) (hb : g.board (i : Int) (j : Int) = 0) :
    ∀ a b : Nat, a < g.size → b < g.size →
      (uncoverVis g mines (i : Int) (j : Int) (a : Int) (b : Int) = some 1 ↔
        Reach g.size g.board (i : Int) (j : Int) (a : Int) (b : Int)) ∧
      (¬ Reach g.size g.board (i : Int) (j : Int) (a : Int) (b : Int) →
        uncoverVis g mines (i : Int) (j : Int) (a : Int) (b : Int) =
          some (g.visible (a : Int) (b : Int))) := by
  intro a b ha hb'
  have hval : isValidPoint g.size (i : Int) (j : Int) = true :=
    isValidPoint_natCast.mpr ⟨hi, hj⟩
  have hvalab : isValidPoint g.size (a : Int) (b : Int) = true :=
    isValidPoint_natCast.mpr ⟨ha, hb'⟩
  have hvis := allHidden_int hall hval
  have hcore := flood_closure_core hall hval hb (a : Int) (b : Int) hvalab
  have hx0 : (0 : Int) ≤ (i : Int) := Int.natCast_nonneg i
  have hxs : (i : Int) < (g.size : Int) := by exact_mod_cast hi
  have hy0 : (0 : Int) ≤ (j : Int) := Int.natCast_nonneg j
  have hys : (j : Int) < (g.size : Int) := by exact_mod_cast hj
  unfold uncoverVis
  rw [uncover_eq_reveal hfm hx0 hxs hy0 hys (by omega) (by omega)]
  simp only [Option.map_some']
  have hproj : ({ makeVisible (g.size * g.size + 3) g (i : Int) (j : Int) 0 with
      status := checkGameStatus (makeVisible (g.size * g.size + 3) g (i : Int) (j : Int) 0)
    } : Game).visible = (makeVisible (g.size * g.size + 3) g (i : Int) (j : Int) 0).visible := rfl
  rw [hproj]
  constructor
  · rw [Option.some.injEq]
    exact hcore.1
  · intro hnr
    rw [Option.some.injEq]
    exact hcore.2 hnr

/-- C3 witness: on the all-hidden mine-free 2-by-2 board `gW3`, revealing
(0,0) reveals the diagonal cell (1,1), which is in the closure. -/
theorem c3_flood_fill_closure_witness :
    gW3.firstMove = false ∧ AllHidden gW3 ∧ gW3.board 0 0 = 0 ∧
    uncoverVis gW3 [] 0 0 1 1 = some 1 :=
  ⟨rfl, by unfold AllHidden; decide, rfl,
    ((c3_flood_fill_closure gW3 [] 0 0 rfl (by unfold AllHidden; decide) (by decide)
      (by decide) rfl 1 1 (by decide) (by decide)).1).mpr
      (by
        have h := Reach.step ((1 : Int), (1 : Int))
          (Reach.refl : Reach gW3.size gW3.board 0 0 0 0)
          (by decide) (by decide) (by decide) (by decide)
        norm_num at h
        exact_mod_cast h)⟩

/-- C4 (confirmed): for every accepted sample (distinct flat indices below
`size*size`, as `np.random...choice(n, size=count, replace=False)`
produces), the generated board marks exactly the sampled cells with the
mine value -1, stores in every other cell the exact number of its in-bounds
8-neighbors that are mines, and the number of cells holding -1 equals the
sample's length (the mine count). -/
theorem c4_generated_board_counts (size : Nat) (mines : List Nat)
    (hnd : mines.Nodup) (hrange : ∀ m ∈ mines, m < size * size) :
    (∀ i : Nat, i < size → ∀ j : Nat, j < size →
      (generateBoardFrom size mines (fun _ _ => 0) (i : Int) (j : Int) = -1 ↔
        i * size + j ∈ mines)) ∧
    (∀ i : Nat, i < size → ∀ j : Nat, j < size → i * size + j ∉ mines →
      generateBoardFrom size mines (fun _ _ => 0) (i : Int) (j : Int) =
        (mineNeighborCount size mines (i : Int) (j : Int) : Int)) ∧
    (cellsList size).countP (fun p =>
      generateBoardFrom size mines (fun _ _ => 0) (p.1 : Int) (p.2 : Int) == -1) =
      mines.length := by
  refine ⟨?_, ?_, generateBoardFrom_mine_count size mines hnd hrange⟩
  · intro i hi j hj
    have hval : isValidPoint size (i : Int) (j : Int) = true :=
      isValidPoint_natCast.mpr ⟨hi, hj⟩
    rw [generateBoardFrom_spec size mines hnd hrange _ _ hval]
    simp only [Int.toNat_natCast]
    by_cases hmem : i * size + j ∈ mines
    · simp [hmem]
    · rw [if_neg hmem]
      constructor
      · intro h; exact absurd h (by omega)
      · intro h; exact absurd h hmem
  · intro i hi j hj hmem
    have hval : isValidPoint size (i : Int) (j : Int) = true :=
      isValidPoint_natCast.mpr ⟨hi, hj⟩
    rw [generateBoardFrom_spec size mines hnd hrange _ _ hval]
    simp only [Int.toNat_natCast]
    rw [if_neg hmem]

/-- C4 witness: the 2-by-2 board generated from the sample `[0]` has its
mine at (0,0), counts 1 elsewhere, and exactly one -1 cell. -/
theorem c4_generated_board_counts_witness :
    ([0] : List Nat).Nodup ∧ (∀ m ∈ ([0] : List Nat), m < 2 * 2) ∧
    ((generateBoardFrom 2 [0] (fun _ _ => 0) ((0 : Nat) : Int) ((0 : Nat) : Int) = -1 ↔
      0 * 2 + 0 ∈ ([0] : List Nat)) ∧
     generateBoardFrom 2 [0] (fun _ _ => 0) ((1 : Nat) : Int) ((1 : Nat) : Int) =
       (mineNeighborCount 2 [0] ((1 : Nat) : Int) ((1 : Nat) : Int) : Int) ∧
     (cellsList 2).countP (fun p =>
       generateBoardFrom 2 [0] (fun _ _ => 0) (p.1 : Int) (p.2 : Int) == -1) = 1) :=
  ⟨by decide, by decide,
    (c4_generated_board_counts 2 [0] (by decide) (by decide)).1 0 (by decide) 0 (by decide),
    (c4_generated_board_counts 2 [0] (by decide) (by decide)).2.1 1 (by decide) 1 (by decide)
      (by decide),
    (c4_generated_board_counts 2 [0] (by decide) (by decide)).2.2⟩

/-- C5 (confirmed): for every in-bounds coordinate passed to the very first
reveal of a freshly constructed game, and for every sampling outcome that
lets the generation loop terminate (a sample not containing the
first-clicked flat index), the generated board does not hold a mine at that
coordinate. -/
theorem c5_first_move_safety (size mcount : Nat) (indent : Int) (sample : List Nat)
    (x y : Int) (hx0 : 0 ≤ x) (hxs : x < (size : Int)) (hy0 : 0 ≤ y) (hys : y < (size : Int))
    (haccept : ∀ m ∈ sample, (m : Int) ≠ x * (size : Int) + y) :
    ∃ v : Int, uncoverBoardAt (Minesweeper.init size mcount indent) sample x y x y = some v ∧
      v ≠ -1 := by
  have hflat : ∀ m ∈ sample, m ≠ x.toNat * size + y.toNat := by
    intro m hm heq
    apply haccept m hm
    rw [heq]
    push_cast
    rw [Int.toNat_of_nonneg hx0, Int.toNat_of_nonneg hy0]
  have hnn : 0 ≤ generateBoardFrom size sample (fun _ _ => 0) x y :=
    generateBoardFrom_nonneg size sample (fun _ _ => 0) x y hflat (le_refl 0)
  refine ⟨generateBoardFrom size sample (fun _ _ => 0) x y, ?_, by omega⟩
  unfold uncoverBoardAt
  rw [show Minesweeper.init size mcount indent =
    Game.mk size mcount 0 indent true Status.inProgress (fun _ _ => 0) (fun _ _ => 0) from rfl]
  rw [uncover_firstMove]
  have hbne : (Game.mk size mcount 0 indent false Status.inProgress
      (generateBoardFrom size sample (fun _ _ => 0)) (fun _ _ => 0)).board x y ≠ -1 := by
    show generateBoardFrom size sample (fun _ _ => 0) x y ≠ -1
    omega
  rw [uncover_eq_reveal rfl hx0 hxs hy0 hys (by omega : (0 : Nat) ≠ 2) hbne]
  simp only [Option.map_some']
  refine congrArg some ?_
  show (makeVisible (size * size + 3) _ x y 0).board x y = _
  rw [makeVisible_board]

/-- C5 witness: on a fresh 2-by-2 game whose accepted sample is `[3]`
(mine at (1,1)), the first reveal at (0,0) finds the count 1 there, not a
mine. -/
theorem c5_first_move_safety_witness :
    ((0 : Int) ≤ 0 ∧ (0 : Int) < 2 ∧ (∀ m ∈ ([3] : List Nat), (m : Int) ≠ 0 * 2 + 0)) ∧
    ∃ v : Int, uncoverBoardAt (Minesweeper.init 2 1 0) [3] 0 0 0 0 = some v ∧ v ≠ -1 :=
  ⟨⟨by decide, by decide, by decide⟩,
    c5_first_move_safety 2 1 0 [3] 0 0 (by decide) (by decide) (by decide) (by decide)
      (by decide)⟩

/-- C6, counterexample: `gC6` is a 2-by-2 board with all three safe cells
Revealed; revealing the hidden mine (1,1) returns Lost while every non-mine
cell is Revealed, so "status is Won iff every non-mine cell is Revealed"
fails for this reveal call. -/
theorem c6_won_iff_cex :
    gC6.firstMove = false ∧
    uncoverStatus gC6 [] 1 1 = some Status.lost ∧
    ((cellsList 2).all fun p =>
      (gC6.board (p.1 : Int) (p.2 : Int) == -1) ||
        (uncoverVis gC6 [] 1 1 (p.1 : Int) (p.2 : Int) == some 1)) = true := by decide

/-- C6 (amended): after a reveal on a generated board whose target is
neither Flagged nor a mine (so the status is actually recomputed by
`_check_game_status`), the returned status is Won iff every non-mine cell
is Revealed *and no mine cell is Revealed*.  For a reveal that hits a mine
the status is Lost regardless of the rest of the board (see the
counterexample), and a Flagged target just echoes the stored status. -/
theorem c6_won_iff_all_safe_revealed (g : Game) (mines : List Nat) (x y : Int)
    (hfm : g.firstMove = false)
    (hx0 : 0 ≤ x) (hxs : x < (g.size : Int)) (hy0 : 0 ≤ y) (hys : y < (g.size : Int))
    (hnotflag : g.visible x y ≠ 2) (hnomine : g.board x y ≠ -1) :
    uncoverStatus g mines x y = some Status.won ↔
      ∀ i : Nat, i < g.size → ∀ j : Nat, j < g.size →
        ((g.board (i : Int) (j : Int) ≠ -1 →
          uncoverVis g mines x y (i : Int) (j : Int) = some 1) ∧
         (g.board (i : Int) (j : Int) = -1 →
          uncoverVis g mines x y (i : Int) (j : Int) ≠ some 1)) := by
  unfold uncoverStatus uncoverVis
  rw [uncover_eq_reveal hfm hx0 hxs hy0 hys hnotflag hnomine]
  have hproj : ({ makeVisible (g.size * g.size + 3) g x y 0 with
      status := checkGameStatus (makeVisible (g.size * g.size + 3) g x y 0) } : Game).visible =
      (makeVisible (g.size * g.size + 3) g x y 0).visible := rfl
  simp only [Option.map_some', Option.some.injEq, hproj]
  rw [checkGameStatus_won_iff]
  simp only [makeVisible_size, makeVisible_board]
  constructor
  · intro h i hi j hj
    obtain ⟨h1, h2⟩ := h i j hi hj
    exact ⟨h2, fun hm hsome => h1 hm (Option.some.inj hsome)⟩
  · intro h i j hi hj
    obtain ⟨h1, h2⟩ := h i hi j hj
    exact ⟨fun hm hv1 => h2 hm (congrArg some hv1), h1⟩

/-- C6 witness: on the mine-free 1-by-1 board, revealing the only cell wins,
and the characterization agrees. -/
theorem c6_won_iff_all_safe_revealed_witness :
    gW6.firstMove = false ∧ gW6.visible 0 0 ≠ 2 ∧ gW6.board 0 0 ≠ -1 ∧
    uncoverStatus gW6 [] 0 0 = some Status.won :=
  ⟨rfl, by decide, by decide,
    (c6_won_iff_all_safe_revealed gW6 [] 0 0 rfl (by decide) (by decide) (by decide)
      (by decide) (by decide) (by decide)).mpr (by decide)⟩

set_option maxRecDepth 8000 in
/-- C10 (confirmed): first, the concrete trace `c10t1 … c10t4` (a real run
from a fresh game: first reveal at the safe cell (1,1), two wrong flags,
then a chord-reveal on (1,1) whose count 2 matches the 2 flags) ends with
the mine (0,0) Revealed and status Lost — a reveal targeting a safe
Revealed cell loses the game.  Second, by contrast, a non-chord reveal of a
Hidden zero-count cell on a consistent generated board never changes the
visibility of any mine cell. -/
theorem c10_chord_can_lose_safe_reveal_cannot :
    ((c10t1.map fun p =>
        (p.2, p.1.visible 1 1, p.1.board 1 1, p.1.board 0 0, p.1.visible 0 0)) =
        some (Status.inProgress, 1, 2, -1, 0) ∧
      (c10t4.map fun p => (p.2, p.1.visible 0 0, p.1.board 0 0)) =
        some (Status.lost, 1, -1)) ∧
    (∀ (g : Game) (mines : List Nat) (x y : Int),
      BoardConsistent g → g.firstMove = false →
      0 ≤ x → x < (g.size : Int) → 0 ≤ y → y < (g.size : Int) →
      g.visible x y = 0 → g.board x y = 0 →
      ∀ a b : Int, g.board a b = -1 →
        uncoverVis g mines x y a b = some (g.visible a b)) := by
  constructor
  · exact ⟨by decide, by decide⟩
  · intro g mines x y hc hfm hx0 hxs hy0 hys hhid hbz a b hmine
    unfold uncoverVis
    rw [uncover_eq_reveal hfm hx0 hxs hy0 hys (by omega) (by omega)]
    simp only [Option.map_some']
    refine congrArg some ?_
    show (makeVisible (g.size * g.size + 3) g x y 0).visible a b = g.visible a b
    by_cases hch : (makeVisible (g.size * g.size + 3) g x y 0).visible a b = g.visible a b
    · exact hch
    · exfalso
      have hr := makeVisible_sound g.size g.board (Reach g.size g.board x y)
        (fun a' b' hA hv' hbz' d hd hdv => Reach.step d hA hv' hbz' hd hdv)
        (g.size * g.size + 3) g x y 0 rfl rfl (fun _ => Reach.refl)
        (fun _ => by omega) a b hch
      exact reach_nonmine hc hbz a b hr hmine

/-- C10 witness: on the consistent 3-by-3 board with its single mine at
(0,0), revealing the hidden zero-count cell (2,2) leaves the mine's
visibility untouched. -/
theorem c10_chord_can_lose_safe_reveal_cannot_witness :
    BoardConsistent gW10 ∧ gW10.firstMove = false ∧ gW10.visible 2 2 = 0 ∧
    gW10.board 2 2 = 0 ∧ gW10.board 0 0 = -1 ∧
    uncoverVis gW10 [] 2 2 0 0 = some 0 :=
  ⟨by unfold BoardConsistent; decide, rfl, rfl, by decide, by decide,
    c10_chord_can_lose_safe_reveal_cannot.2 gW10 [] 2 2
      (by unfold BoardConsistent; decide) rfl (by decide) (by decide) (by decide)
      (by decide) rfl (by decide) 0 0 (by decide)⟩
